import Mathlib

/-!
# Verification of the cached Markov-chain engine (entromatica)

Shallow embedding of the core of the library: the memoized generator
(`src/cached_function.rs`), the simulation engine (`src/simulation.rs`)
and the rule-composition layer (`src/models/rules.rs`).

Modelling conventions:
* Probabilities (`f64` in the source) are embedded as `ℚ`; floating-point
  rounding of `+`, `*`, `/` is outside the model, but the source's explicit
  10-decimal rounding check is embedded exactly (`round_rust`).
* The 64-bit digest produced by `hash` (`src/hash.rs`) is modelled as the
  identity function on states/transitions: the spec treats the digest as
  injective ("collision-equivalent to equality", collisions being 2⁻⁶⁴
  events that are not handled), so a registry keyed by digests is keyed
  here by the values themselves.
* `hashbrown::HashMap` is modelled as an association list with unique keys
  (`HMap`), insertion replacing in place; iteration order is the list
  order, a deterministic refinement of the unspecified HashMap order.
* `petgraph::Graph` is modelled as a node list (index = position) plus an
  edge list; `update_edge` replaces the first edge with the same endpoints,
  exactly as `petgraph` does.
* Rust panics (`assert_eq!` in `next_step`, `expect` in
  `probability_distribution`) are modelled with `Except`/`Option`; the
  engine value returned alongside the error reflects the mutations that
  happened before the panic point, in source order.
* IEEE NaN (relevant only to `entropy`, where `0.0 * log2(0.0) = NaN`) is
  modelled by `Option ℝ` with `none` for NaN.
* The user generator function is invoked through `CachedFunction`, which
  additionally records the list of inputs the raw function was invoked on
  (`invocations`), so that invocation counts are observable.
-/

/-- Association list modelling `hashbrown::HashMap`. Keys are unique
whenever the map is built from `[]` by `hmInsert`/`hmUpsert`. -/
abbrev HMap (K V : Type) : Type := List (K × V)

/-- `HashMap::get`. -/
def hmLookup {K V : Type} [DecidableEq K] : HMap K V → K → Option V
  | [], _ => none
  | p :: rest, k => if p.1 = k then some p.2 else hmLookup rest k

/-- `HashMap::insert`: replace the value at an existing key in place,
otherwise append the new entry. -/
def hmInsert {K V : Type} [DecidableEq K] : HMap K V → K → V → HMap K V
  | [], k, v => [(k, v)]
  | p :: rest, k, v => if p.1 = k then (k, v) :: rest else p :: hmInsert rest k v

/-- `HashMap::entry(k).and_modify(f).or_insert(v0)`. -/
def hmUpsert {K V : Type} [DecidableEq K] : HMap K V → K → (V → V) → V → HMap K V
  | [], k, _, v0 => [(k, v0)]
  | p :: rest, k, f, v0 =>
      if p.1 = k then (k, f p.2) :: rest else p :: hmUpsert rest k f v0

/-- The keys, in storage order. -/
def hmKeys {K V : Type} (m : HMap K V) : List K := m.map (fun p => p.1)

/-- Directed graph modelling `petgraph::Graph`: node weights in a list
(the node index is the position), edges as `(source index, target index,
edge weight)` triples. -/
structure DiGraph (N E : Type) where
  nodes : List N
  edges : List (Nat × Nat × E)

instance (N E : Type) [DecidableEq N] [DecidableEq E] : DecidableEq (DiGraph N E) := by
  intro a b
  cases a
  cases b
  simp only [DiGraph.mk.injEq]
  exact instDecidableAnd

namespace DiGraph

/-- `Graph::add_node`: always appends (petgraph never deduplicates). -/
def add_node {N E : Type} (g : DiGraph N E) (w : N) : DiGraph N E :=
  ⟨g.nodes ++ [w], g.edges⟩

/-- `graph.node_indices().find(|n| node_weight(n) == w)`. -/
def find_node {N E : Type} [DecidableEq N] (g : DiGraph N E) (w : N) : Option Nat :=
  g.nodes.findIdx? (fun x => decide (x = w))

/-- Edge-list part of `Graph::update_edge`: replace the weight of the
first edge with endpoints `(a, b)`, or append a fresh edge. -/
def upd_edges {E : Type} : List (Nat × Nat × E) → Nat → Nat → E → List (Nat × Nat × E)
  | [], a, b, w => [(a, b, w)]
  | e :: rest, a, b, w =>
      if e.1 = a ∧ e.2.1 = b then (a, b, w) :: rest else e :: upd_edges rest a b w

/-- `Graph::update_edge`. -/
def update_edge {N E : Type} (g : DiGraph N E) (a b : Nat) (w : E) : DiGraph N E :=
  ⟨g.nodes, upd_edges g.edges a b w⟩

/-- `Graph::node_count`. -/
def node_count {N E : Type} (g : DiGraph N E) : Nat := g.nodes.length

/-- `Graph::edge_count`. -/
def edge_count {N E : Type} (g : DiGraph N E) : Nat := g.edges.length

end DiGraph

/-- `CachedFunction` (`src/cached_function.rs`), with an extra ghost field
`invocations` recording every input on which the raw user function was
invoked (the "counting generator" instrumentation of the spec). -/
structure CachedFunction (I O : Type) where
  cache : HMap I O
  function : I → O
  invocations : List I

namespace CachedFunction

/-- `CachedFunction::new`. -/
def new {I O : Type} (function : I → O) : CachedFunction I O :=
  ⟨[], function, []⟩

/-- `CachedFunction::bypass` (skips the cache entirely). -/
def bypass {I O : Type} (cf : CachedFunction I O) (input : I) : O :=
  cf.function input

/-- `CachedFunction::call`: on hit return the stored value, on miss invoke
the function once, insert and return. -/
def call {I O : Type} [DecidableEq I] (cf : CachedFunction I O) (input : I) :
    O × CachedFunction I O :=
  match hmLookup cf.cache input with
  | some output => (output, cf)
  | none =>
      let output := cf.bypass input
      (output,
        { cf with
          cache := hmInsert cf.cache input output
          invocations := cf.invocations ++ [input] })

/-- `CachedFunction::call_many_parallel`: evaluates the raw function on
every input (cache reads are skipped in the lock-free parallel phase),
then inserts all pairs into the cache serially. -/
def call_many_parallel {I O : Type} [DecidableEq I] (cf : CachedFunction I O)
    (inputs : List I) : List O × CachedFunction I O :=
  let pairs := inputs.map (fun input => (input, cf.bypass input))
  (pairs.map (fun p => p.2),
    { cf with
      cache := pairs.foldl (fun c p => hmInsert c p.1 p.2) cf.cache
      invocations := cf.invocations ++ inputs })

end CachedFunction

/-- `Probability` (`type Probability = f64`), embedded as `ℚ`. -/
abbrev Probability : Type := ℚ

/-- `type Time = u64`. -/
abbrev Time : Type := Nat

/-- One successor list: `OutgoingTransitions<S, T> = Vec<(S, T, Probability)>`. -/
abbrev OutgoingTransitions (S T : Type) : Type := List (S × T × Probability)

/-- The cached Markov-chain engine (`Simulation` in `src/simulation.rs`).
Digests are modelled as the values themselves (injective hash), so
`known_states : HMap S S` maps a digest to its state. -/
structure Simulation (S T : Type) where
  state_transition_graph : DiGraph S (T × Probability)
  probability_distributions : HMap Time (HMap S Probability)
  known_states : HMap S S
  known_transitions : HMap T T
  state_transition_generator : CachedFunction S (OutgoingTransitions S T)

namespace Simulation

variable {S T : Type}

/-- `Simulation::new`: single initial state with probability 1, node
added to the graph, time 0 registered. -/
def new [DecidableEq S] (initial_state : S)
    (generator : S → OutgoingTransitions S T) : Simulation S T where
  state_transition_graph := DiGraph.add_node ⟨[], []⟩ initial_state
  probability_distributions := [(0, [(initial_state, 1)])]
  known_states := [(initial_state, initial_state)]
  known_transitions := []
  state_transition_generator := CachedFunction.new generator

/-- `Simulation::new_with_distribution`: the given map is stored as the
time-0 distribution with **no validation of its probability sum**; its
states are interned and added as isolated graph nodes. -/
def new_with_distribution [DecidableEq S] (probabilities : HMap S Probability)
    (generator : S → OutgoingTransitions S T) : Simulation S T where
  state_transition_graph := ⟨hmKeys probabilities, []⟩
  probability_distributions := [(0, probabilities)]
  known_states := probabilities.map (fun p => (p.1, p.1))
  known_transitions := []
  state_transition_generator := CachedFunction.new generator

/-- `Simulation::time`: `keys().max().unwrap_or(0)`. -/
def time (sim : Simulation S T) : Time :=
  (hmKeys sim.probability_distributions).foldr max 0

/-- `Simulation::probability_distribution`: the stored map for `time`, or
`none` for the `expect` panic (*missing-time*). The source maps each
digest back to its state through the registry; under the injective-digest
model that lookup is the identity. -/
def probability_distribution [DecidableEq S] (sim : Simulation S T) (time : Time) :
    Option (HMap S Probability) :=
  hmLookup sim.probability_distributions time

/-- Sum of the probabilities stored in a distribution. -/
def dist_sum {S : Type} (d : HMap S Probability) : ℚ :=
  (d.map (fun p => p.2)).sum

/-- Sum of the probabilities of one successor list. -/
def row_sum {S T : Type} (row : OutgoingTransitions S T) : ℚ :=
  (row.map (fun e => e.2.2)).sum

/-- `f64::round`: round half away from zero. -/
def round_rust (q : ℚ) : ℤ :=
  if 0 ≤ q then ⌊q + 1 / 2⌋ else -⌊-q + 1 / 2⌋

/-- The row-stochasticity check of `next_step`:
`(sum * 10^10).round() / 10^10 == 1.0`, which in exact arithmetic is
`round(sum * 10^10) = 10^10`. -/
def row_ok {S T : Type} (row : OutgoingTransitions S T) : Bool :=
  decide (round_rust (row_sum row * 10 ^ 10) = 10 ^ 10)

/-- The snapshot of the current distribution taken at the top of
`next_step` (a vector of `(state, probability)` pairs). The source
panics when the current time has no distribution; that situation never
arises (time 0 is always recorded), and the model supplies `[]`. -/
def snapshot [DecidableEq S] (sim : Simulation S T) : List (S × Probability) :=
  (sim.probability_distribution sim.time).getD []

/-- The fold of `next_step` ("Calculate new state probability
distribution"): for every source `(Sᵢ, pᵢ)` and successor `(Sᵢⱼ, Tᵢⱼ, qᵢⱼ)`,
accumulate `pᵢ · qᵢⱼ` at the key `hash(Sᵢⱼ)`. -/
def new_distribution [DecidableEq S]
    (stp : List (OutgoingTransitions S T)) (spd : List (S × Probability)) :
    HMap S Probability :=
  (stp.zip spd).foldl
    (fun acc rp =>
      rp.1.foldl
        (fun acc e =>
          hmUpsert acc e.1 (fun q => q + rp.2.2 * e.2.2) (rp.2.2 * e.2.2))
        acc)
    []

/-- The interning pass of `next_step` ("Add new states and transitions to
known states and transitions"), restricted to states. -/
def intern_states [DecidableEq S]
    (stp : List (OutgoingTransitions S T)) (ks : HMap S S) : HMap S S :=
  stp.foldl (fun ks row => row.foldl (fun ks e => hmInsert ks e.1 e.1) ks) ks

/-- The interning pass of `next_step`, restricted to transitions. -/
def intern_transitions [DecidableEq T]
    (stp : List (OutgoingTransitions S T)) (kt : HMap T T) : HMap T T :=
  stp.foldl (fun kt row => row.foldl (fun kt e => hmInsert kt e.2.1 e.2.1) kt) kt

/-- The graph pass of `next_step` ("Add new state transitions to state
transition graph"): for every source/successor pair, find the source node
(always present; `unwrap` in the source — the model's `getD` default is
never reached), find or add the target node, and `update_edge`. -/
def graph_update [DecidableEq S]
    (stp : List (OutgoingTransitions S T)) (spd : List (S × Probability))
    (g0 : DiGraph S (T × Probability)) : DiGraph S (T × Probability) :=
  (stp.zip spd).foldl
    (fun g rp =>
      rp.1.foldl
        (fun (g : DiGraph S (T × Probability)) e =>
          let source := (g.find_node rp.2.1).getD g.nodes.length
          match g.find_node e.1 with
          | some target => g.update_edge source target (e.2.1, e.2.2)
          | none => (g.add_node e.1).update_edge source g.nodes.length (e.2.1, e.2.2))
        g)
    g0

end Simulation

namespace Simulation

variable {S T : Type}

/-- `Simulation::next_step`. Returns the engine as observable after the
call together with either the new distribution or the
*non-stochastic-row* panic message. The phases appear in source order:
snapshot, batch generator evaluation (which updates the memoization
cache), row-stochasticity check (panic point), fold into the new
distribution, publication into the history, interning, graph update. -/
def next_step [DecidableEq S] [DecidableEq T] (sim : Simulation S T) :
    Simulation S T × Except String (HMap S Probability) :=
  let initial_time := sim.time
  let state_probability_distribution := sim.snapshot
  let called := sim.state_transition_generator.call_many_parallel
    (state_probability_distribution.map (fun p => p.1))
  let state_transition_probabilities := called.1
  let sim1 := { sim with state_transition_generator := called.2 }
  if state_transition_probabilities.all (fun next_states => row_ok next_states) then
    let nd := new_distribution state_transition_probabilities
      state_probability_distribution
    let sim2 := { sim1 with
      probability_distributions :=
        hmInsert sim1.probability_distributions (initial_time + 1) nd }
    let sim3 := { sim2 with
      known_states := intern_states state_transition_probabilities sim2.known_states
      known_transitions :=
        intern_transitions state_transition_probabilities sim2.known_transitions }
    let sim4 := { sim3 with
      state_transition_graph := graph_update state_transition_probabilities
        state_probability_distribution sim3.state_transition_graph }
    (sim4, Except.ok nd)
  else
    (sim1, Except.error "Sum of probabilities of next states is not 1.0")

/-- Outcome of the `full_traversal` loop: the loop condition became false
(`completed`, the only outcome of the source's unbounded loop on a finite
chain), the model's fuel ran out (`out_of_fuel`, a model artifact), or a
`next_step` inside the loop panicked (`failed`). -/
inductive TraversalOutcome : Type
  | completed : TraversalOutcome
  | out_of_fuel : TraversalOutcome
  | failed : TraversalOutcome
deriving DecidableEq

/-- The loop of `full_traversal` with `modify_cache_only == false`:
`while num_current_known_states != known_states.len() { num := len; next_step() }`,
mutating the engine directly. -/
def traversal_direct [DecidableEq S] [DecidableEq T] :
    Nat → Nat → Simulation S T → Simulation S T × TraversalOutcome
  | fuel, num_prev, sim =>
      if num_prev = sim.known_states.length then (sim, TraversalOutcome.completed)
      else
        match fuel with
        | 0 => (sim, TraversalOutcome.out_of_fuel)
        | fuel + 1 =>
            let n := sim.known_states.length
            let stepped := sim.next_step
            match stepped.2 with
            | Except.error _ => (stepped.1, TraversalOutcome.failed)
            | Except.ok _ => traversal_direct fuel n stepped.1

/-- The loop of `full_traversal` with `modify_cache_only == true`: the
loop steps an internal clone and after each successful step copies the
known-states registry, the known-transitions registry, the transition
graph and the memoized generator (cache included) back into `self`; the
distribution history of `self` is never written. A panic inside
`next_step` aborts before the copy of that iteration. -/
def traversal_clone [DecidableEq S] [DecidableEq T] :
    Nat → Nat → Simulation S T → Simulation S T → Simulation S T × TraversalOutcome
  | fuel, num_prev, self, clone =>
      if num_prev = clone.known_states.length then (self, TraversalOutcome.completed)
      else
        match fuel with
        | 0 => (self, TraversalOutcome.out_of_fuel)
        | fuel + 1 =>
            let n := clone.known_states.length
            let stepped := clone.next_step
            match stepped.2 with
            | Except.error _ => (self, TraversalOutcome.failed)
            | Except.ok _ =>
                let self' := { self with
                  known_states := stepped.1.known_states
                  known_transitions := stepped.1.known_transitions
                  state_transition_graph := stepped.1.state_transition_graph
                  state_transition_generator := stepped.1.state_transition_generator }
                traversal_clone fuel n self' stepped.1

/-- `Simulation::full_traversal(modify_cache_only)`, with fuel bounding
the number of loop iterations of the model (the source loop is unbounded
and terminates exactly when the reachable set is finite; an outcome other
than `out_of_fuel` means the model computed the source's behaviour). -/
def full_traversal [DecidableEq S] [DecidableEq T] (sim : Simulation S T)
    (modify_cache_only : Bool) (fuel : Nat) : Simulation S T × TraversalOutcome :=
  if modify_cache_only then traversal_clone fuel 0 sim sim
  else traversal_direct fuel 0 sim

/-- The engine-mutating operations of the public API.
`uniform_distribution_is_steady` and `transition_rate_matrix` mutate
`self` exactly through one `full_traversal(true)` call (all their further
work happens on clones or is read-only), so they are modelled by that
mutation. -/
inductive EngineOp : Type
  | step : EngineOp
  | traversal : Bool → Nat → EngineOp
  | uniform_steady : Nat → EngineOp
  | rate_matrix : Nat → EngineOp

/-- Effect of one operation on the engine. -/
def apply_op [DecidableEq S] [DecidableEq T] (sim : Simulation S T) :
    EngineOp → Simulation S T
  | EngineOp.step => sim.next_step.1
  | EngineOp.traversal b fuel => (sim.full_traversal b fuel).1
  | EngineOp.uniform_steady fuel => (sim.full_traversal true fuel).1
  | EngineOp.rate_matrix fuel => (sim.full_traversal true fuel).1

/-- Run a sequence of mutating operations. -/
def run_ops [DecidableEq S] [DecidableEq T] (sim : Simulation S T)
    (ops : List EngineOp) : Simulation S T :=
  ops.foldl apply_op sim

/-- Engines produced by one of the two constructors over the generator `f`. -/
def built_from [DecidableEq S] (f : S → OutgoingTransitions S T)
    (sim : Simulation S T) : Prop :=
  (∃ s, sim = Simulation.new s f) ∨
    (∃ d, sim = Simulation.new_with_distribution d f)

end Simulation

/-- IEEE value of `p * p.log2()` for an `f64` holding the rational `p`:
a real number when `p > 0`, and NaN (modelled `none`) when `p = 0`
(`0.0 * -inf`) or `p < 0` (`log2` of a negative is NaN). -/
noncomputable def f64_term (p : ℚ) : Option ℝ :=
  if 0 < p then some ((p : ℝ) * Real.logb 2 (p : ℝ)) else none

/-- IEEE sum of a list of `f64` values, propagating NaN. -/
noncomputable def f64_sum (l : List (Option ℝ)) : Option ℝ :=
  l.foldl
    (fun acc x =>
      match acc, x with
      | some a, some b => some (a + b)
      | _, _ => none)
    (some 0)

namespace Simulation

variable {S T : Type}

/-- `Simulation::entropy`: map every stored probability to
`p * p.log2()`, sum, take the absolute value. `none` models both the
*missing-time* panic of the inner `probability_distribution` call and a
NaN result (which arises exactly when some stored probability is `≤ 0`).
For every claim below the queried time is recorded, so `none` can only
mean NaN there. -/
noncomputable def entropy [DecidableEq S] (sim : Simulation S T) (time : Time) :
    Option ℝ :=
  (sim.probability_distribution time).bind
    (fun d => (f64_sum (d.map (fun p => f64_term p.2))).map (fun x => |x|))

end Simulation

/-- A rule of the rule-composition layer (`src/models/rules.rs`):
description, condition, probability weight, action. -/
structure Rule (S : Type) where
  description : String
  condition : S → Bool
  weight : ℚ
  action : S → S

namespace Rule

/-- `Rule::applies`. -/
def applies {S : Type} (r : Rule S) (s : S) : Bool := r.condition s

/-- `Rule::apply`. -/
def apply_action {S : Type} (r : Rule S) (s : S) : S := r.action s

end Rule

/-- The merge phase of `get_state_transition_generator`
(`new_states_by_weight`): the applying rules' `(successor, weight,
description)` triples folded into a map keyed by the successor digest;
entries with the same successor coalesce by **summing the weights** and
joining the descriptions with `" | "` in encounter order. -/
def new_states_by_weight {S : Type} [DecidableEq S] (rules : List (Rule S))
    (state : S) : HMap S (S × ℚ × String) :=
  ((rules.filter (fun r => r.applies state)).map
      (fun r => (r.apply_action state, r.weight, r.description))).foldl
    (fun acc e =>
      hmUpsert acc e.1
        (fun v => (v.1, v.2.1 + e.2.1, v.2.2 ++ " | " ++ e.2.2))
        (e.1, e.2.1, e.2.2))
    []

/-- `nothing_probability` as computed by the source: the product of
`1 - weight` over the **merged** entries (not over the individual
applying rules). -/
def nothing_probability {S : Type} [DecidableEq S] (rules : List (Rule S))
    (state : S) : ℚ :=
  ((new_states_by_weight rules state).map (fun p => 1 - p.2.2.1)).prod

/-- `weight_sum`: the normalization denominator, sum of the merged
weights plus the do-nothing probability. -/
def rules_weight_sum {S : Type} [DecidableEq S] (rules : List (Rule S))
    (state : S) : ℚ :=
  ((new_states_by_weight rules state).map (fun p => p.2.2.1)).sum +
    nothing_probability rules state

/-- `get_state_transition_generator`: normalize every merged weight by
`weight_sum`; when the do-nothing probability is positive fold the
self-loop `(state, "Nothing", nothing/weight_sum)` into the map (merging
with an existing self-loop); emit `(state, description, probability)`
triples. -/
def get_state_transition_generator {S : Type} [DecidableEq S]
    (rules : List (Rule S)) : S → OutgoingTransitions S String :=
  fun state =>
    let merged := new_states_by_weight rules state
    let nothing_p := nothing_probability rules state
    let weight_sum := rules_weight_sum rules state
    let new_states : HMap S (S × ℚ × String) :=
      merged.map (fun p => (p.1, (p.2.1, p.2.2.1 / weight_sum, p.2.2.2)))
    let with_nothing :=
      if 0 < nothing_p then
        hmUpsert new_states state
          (fun v => (v.1, v.2.1 + nothing_p / weight_sum, v.2.2 ++ " | Nothing"))
          (state, nothing_p / weight_sum, "Nothing")
      else new_states
    with_nothing.map (fun p => (p.2.1, p.2.2.2, p.2.2.1))

/-- The 1-D random-walk generator of the source's tests and doc examples:
`state → [(state+1, "next", 0.5), (state-1, "previous", 0.5)]`. -/
def walk_generator : ℤ → OutgoingTransitions ℤ String :=
  fun state => [(state + 1, "next", (1 : ℚ) / 2), (state - 1, "previous", (1 : ℚ) / 2)]

/-- A generator with a single self-loop of probability 1. -/
def stay_generator : ℤ → OutgoingTransitions ℤ String :=
  fun state => [(state, "stay", (1 : ℚ))]

/-- A generator whose successor list sums to 1/2: every row fails the
row-stochasticity check. -/
def bad_generator : ℤ → OutgoingTransitions ℤ String :=
  fun state => [(state, "half", (1 : ℚ) / 2)]

/-- The 5-cycle generator of the source's `full_traversal` test:
forward/backward walk on `{0, 1, 2, 3, 4}` with wrap-around. -/
def cycle_generator : ℤ → OutgoingTransitions ℤ String :=
  fun state =>
    [(if state + 1 = 5 then 0 else state + 1, "forward", (1 : ℚ) / 2),
     (if state - 1 = -1 then 4 else state - 1, "backward", (1 : ℚ) / 2)]

section HMapLemmas

variable {K V : Type} [DecidableEq K]

omit [DecidableEq K] in
theorem hmKeys_cons (p : K × V) (rest : HMap K V) :
    hmKeys (p :: rest) = p.1 :: hmKeys rest := rfl

theorem hmLookup_insert_self (m : HMap K V) (k : K) (v : V) :
    hmLookup (hmInsert m k v) k = some v := by
  induction m with
  | nil => simp [hmInsert, hmLookup]
  | cons p rest ih =>
      by_cases h : p.1 = k
      · simp [hmInsert, hmLookup, h]
      · simp [hmInsert, hmLookup, h, ih]

theorem hmLookup_insert_ne (m : HMap K V) (k k' : K) (v : V) (h : k' ≠ k) :
    hmLookup (hmInsert m k v) k' = hmLookup m k' := by
  induction m with
  | nil => simp [hmInsert, hmLookup, Ne.symm h]
  | cons p rest ih =>
      by_cases hp : p.1 = k
      · subst hp
        simp [hmInsert, hmLookup, Ne.symm h, h, ih]
      · by_cases hp' : p.1 = k'
        · simp [hmInsert, hmLookup, hp, hp', h]
        · simp [hmInsert, hmLookup, hp, hp', ih]

theorem hmLookup_eq_none_iff (m : HMap K V) (k : K) :
    hmLookup m k = none ↔ k ∉ hmKeys m := by
  induction m with
  | nil => simp [hmLookup, hmKeys]
  | cons p rest ih =>
      by_cases h : p.1 = k
      · simp [hmLookup, hmKeys_cons, h]
      · rw [hmKeys_cons]
        simp only [hmLookup, if_neg h, ih, List.mem_cons]
        constructor
        · intro hn hc
          rcases hc with hc | hc
          · exact h hc.symm
          · exact hn hc
        · intro hn hc
          exact hn (Or.inr hc)

theorem hmLookup_isSome_of_mem (m : HMap K V) (k : K) (h : k ∈ hmKeys m) :
    (hmLookup m k).isSome := by
  cases hl : hmLookup m k with
  | none => exact absurd ((hmLookup_eq_none_iff m k).mp hl) (not_not_intro h)
  | some v => rfl

theorem hmInsert_of_not_mem (m : HMap K V) (k : K) (v : V) (h : k ∉ hmKeys m) :
    hmInsert m k v = m ++ [(k, v)] := by
  induction m with
  | nil => simp [hmInsert]
  | cons p rest ih =>
      rw [hmKeys_cons] at h
      have h1 : ¬p.1 = k := fun hh => h (hh ▸ List.mem_cons_self _ _)
      have h2 : k ∉ hmKeys rest := fun hh => h (List.mem_cons_of_mem _ hh)
      simp [hmInsert, h1, ih h2]

theorem hmUpsert_of_not_mem (m : HMap K V) (k : K) (f : V → V) (v0 : V)
    (h : k ∉ hmKeys m) : hmUpsert m k f v0 = m ++ [(k, v0)] := by
  induction m with
  | nil => simp [hmUpsert]
  | cons p rest ih =>
      rw [hmKeys_cons] at h
      have h1 : ¬p.1 = k := fun hh => h (hh ▸ List.mem_cons_self _ _)
      have h2 : k ∉ hmKeys rest := fun hh => h (List.mem_cons_of_mem _ hh)
      simp [hmUpsert, h1, ih h2]

end HMapLemmas

namespace Simulation

variable {S T : Type}

theorem dist_sum_upsert_add [DecidableEq S]
    (m : HMap S Probability) (k : S) (c : ℚ) :
    dist_sum (hmUpsert m k (fun q => q + c) c) = dist_sum m + c := by
  induction m with
  | nil => simp [hmUpsert, dist_sum]
  | cons p rest ih =>
      by_cases h : p.1 = k
      · simp only [hmUpsert, if_pos h, dist_sum, List.map_cons, List.sum_cons]
        ring
      · simp only [hmUpsert, if_neg h, dist_sum, List.map_cons, List.sum_cons] at ih ⊢
        rw [ih]
        ring

/-- Folding one successor row into the accumulating distribution adds
`p · row_sum row` to its total mass. -/
theorem dist_sum_fold_row [DecidableEq S]
    (row : OutgoingTransitions S T) (p : ℚ) (acc : HMap S Probability) :
    dist_sum (row.foldl
      (fun acc e => hmUpsert acc e.1 (fun q => q + p * e.2.2) (p * e.2.2)) acc) =
      dist_sum acc + p * row_sum row := by
  induction row generalizing acc with
  | nil => simp [row_sum]
  | cons e rest ih =>
      simp only [List.foldl_cons, ih, dist_sum_upsert_add, row_sum, List.map_cons,
        List.sum_cons]
      ring

/-- The total mass of the next distribution is the `pᵢ`-weighted sum of
the successor-row masses. -/
theorem dist_sum_new_distribution [DecidableEq S]
    (stp : List (OutgoingTransitions S T)) (spd : List (S × Probability)) :
    dist_sum (new_distribution stp spd) =
      ((stp.zip spd).map (fun rp => rp.2.2 * row_sum rp.1)).sum := by
  suffices h : ∀ (l : List (OutgoingTransitions S T × (S × Probability)))
      (acc : HMap S Probability),
      dist_sum (l.foldl
        (fun acc rp => rp.1.foldl
          (fun acc e => hmUpsert acc e.1 (fun q => q + rp.2.2 * e.2.2) (rp.2.2 * e.2.2))
          acc) acc) =
        dist_sum acc + (l.map (fun rp => rp.2.2 * row_sum rp.1)).sum by
    have := h (stp.zip spd) []
    simpa [new_distribution, dist_sum] using this
  intro l
  induction l with
  | nil => simp
  | cons rp rest ih =>
      intro acc
      simp only [List.foldl_cons, List.map_cons, List.sum_cons, ih, dist_sum_fold_row]
      ring

/-- The successor lists computed by the batch generator call at the top of
`next_step`: the raw user function applied to every snapshot state. -/
def gen_rows [DecidableEq S] (sim : Simulation S T) : List (OutgoingTransitions S T) :=
  sim.snapshot.map (fun p => sim.state_transition_generator.function p.1)

theorem call_many_parallel_fst {I O : Type} [DecidableEq I]
    (cf : CachedFunction I O) (inputs : List I) :
    (cf.call_many_parallel inputs).1 = inputs.map cf.function := by
  simp [CachedFunction.call_many_parallel, CachedFunction.bypass, List.map_map]

theorem call_many_parallel_function {I O : Type} [DecidableEq I]
    (cf : CachedFunction I O) (inputs : List I) :
    (cf.call_many_parallel inputs).2.function = cf.function := rfl

end Simulation

namespace Simulation

variable {S T : Type}

theorem gen_rows_spec [DecidableEq S] (sim : Simulation S T) :
    (sim.state_transition_generator.call_many_parallel
        (sim.snapshot.map (fun p => p.1))).1 = sim.gen_rows := by
  rw [call_many_parallel_fst, List.map_map]
  rfl

/-- Unfolding of `next_step` into its two branches: on a passing
row-stochasticity check all five fields are updated and the new
distribution is returned; on a failing check only the memoization cache
(inside the generator) has been touched and the panic is reported. -/
theorem next_step_eq [DecidableEq S] [DecidableEq T] (sim : Simulation S T) :
    sim.next_step =
      if sim.gen_rows.all row_ok then
        ({ state_transition_graph :=
             graph_update sim.gen_rows sim.snapshot sim.state_transition_graph
           probability_distributions :=
             hmInsert sim.probability_distributions (sim.time + 1)
               (new_distribution sim.gen_rows sim.snapshot)
           known_states := intern_states sim.gen_rows sim.known_states
           known_transitions := intern_transitions sim.gen_rows sim.known_transitions
           state_transition_generator :=
             (sim.state_transition_generator.call_many_parallel
               (sim.snapshot.map (fun p => p.1))).2 },
         Except.ok (new_distribution sim.gen_rows sim.snapshot))
      else
        ({ sim with
           state_transition_generator :=
             (sim.state_transition_generator.call_many_parallel
               (sim.snapshot.map (fun p => p.1))).2 },
         Except.error "Sum of probabilities of next states is not 1.0") := by
  rw [next_step]
  rw [gen_rows_spec]

end Simulation

namespace Simulation

variable {S T : Type}

theorem next_step_of_bad_row [DecidableEq S] [DecidableEq T] (sim : Simulation S T)
    (h : sim.gen_rows.all row_ok = false) :
    sim.next_step =
      ({ sim with
         state_transition_generator :=
           (sim.state_transition_generator.call_many_parallel
             (sim.snapshot.map (fun p => p.1))).2 },
       Except.error "Sum of probabilities of next states is not 1.0") := by
  rw [next_step_eq, h]
  rfl

theorem next_step_of_ok_rows [DecidableEq S] [DecidableEq T] (sim : Simulation S T)
    (h : sim.gen_rows.all row_ok = true) :
    sim.next_step =
      ({ state_transition_graph :=
           graph_update sim.gen_rows sim.snapshot sim.state_transition_graph
         probability_distributions :=
           hmInsert sim.probability_distributions (sim.time + 1)
             (new_distribution sim.gen_rows sim.snapshot)
         known_states := intern_states sim.gen_rows sim.known_states
         known_transitions := intern_transitions sim.gen_rows sim.known_transitions
         state_transition_generator :=
           (sim.state_transition_generator.call_many_parallel
              (sim.snapshot.map (fun p => p.1))).2 },
       Except.ok (new_distribution sim.gen_rows sim.snapshot)) := by
  rw [next_step_eq, h]
  rfl

end Simulation

/-- **C1.** If some successor list returned by the state transition
generator on the current snapshot has a probability sum that, rounded to
10 decimal places, differs from 1.0, then `next_step` fails with the
*non-stochastic-row* panic, and the engine state observable after the
failed call has an unchanged distribution history: it remains at `D[t₀]`
(`time` is unchanged) and no distribution for `t₀ + 1` is published. -/
theorem C1_non_stochastic_row_fails_and_preserves_history
    {S T : Type} [DecidableEq S] [DecidableEq T] (sim : Simulation S T)
    (h : ∃ row ∈ sim.gen_rows, Simulation.row_ok row = false) :
    sim.next_step.2 = Except.error "Sum of probabilities of next states is not 1.0" ∧
      sim.next_step.1.probability_distributions = sim.probability_distributions ∧
      sim.next_step.1.time = sim.time ∧
      hmLookup sim.next_step.1.probability_distributions (sim.time + 1) =
        hmLookup sim.probability_distributions (sim.time + 1) := by
  obtain ⟨row, hmem, hrow⟩ := h
  have hall : sim.gen_rows.all Simulation.row_ok = false := by
    rcases Bool.eq_false_or_eq_true (sim.gen_rows.all Simulation.row_ok) with ht | hf
    · have := List.all_eq_true.mp ht row hmem
      rw [hrow] at this
      exact absurd this (by simp)
    · exact hf
  rw [Simulation.next_step_of_bad_row sim hall]
  exact ⟨rfl, rfl, rfl, rfl⟩

/-- Engine used to exhibit a failing row-stochasticity check. -/
def simC1 : Simulation ℤ String := Simulation.new 0 bad_generator

/-- Witness for C1: the generator returning rows summing to 1/2 makes
`next_step` fail and leaves the history unchanged. -/
theorem C1_witness :
    (∃ row ∈ simC1.gen_rows, Simulation.row_ok row = false) ∧
      simC1.next_step.2 =
        Except.error "Sum of probabilities of next states is not 1.0" ∧
      simC1.next_step.1.probability_distributions = simC1.probability_distributions := by
  have hrows : simC1.gen_rows = [[((0 : ℤ), "half", (1 : ℚ) / 2)]] := by
    norm_num [simC1, Simulation.gen_rows, Simulation.snapshot, Simulation.new,
      Simulation.probability_distribution, Simulation.time, hmLookup, hmKeys,
      CachedFunction.new, bad_generator]
  have h : ∃ row ∈ simC1.gen_rows, Simulation.row_ok row = false := by
    refine ⟨[((0 : ℤ), "half", (1 : ℚ) / 2)], by rw [hrows]; exact List.mem_cons_self _ _, ?_⟩
    norm_num [Simulation.row_ok, Simulation.row_sum, Simulation.round_rust]
  have main := C1_non_stochastic_row_fails_and_preserves_history simC1 h
  exact ⟨h, main.1, main.2.1⟩

/-- **C3.** Evidence against the claim that the user generator is invoked
at most once per state: with the self-loop generator, after one
`next_step` the successor list of state 0 is stored in the memoization
cache, yet a second `next_step` — whose batch evaluation goes through
`call_many_parallel`, which never reads the cache — invokes the raw
generator function on state 0 again, for a lifetime total of two
invocations. -/
theorem C3_generator_reinvoked_on_cached_state :
    hmLookup (Simulation.new (0 : ℤ)
        stay_generator).next_step.1.state_transition_generator.cache 0 =
      some [(0, "stay", 1)] ∧
      List.count 0
        (Simulation.new (0 : ℤ)
          stay_generator).next_step.1.next_step.1.state_transition_generator.invocations =
        2 := by
  constructor <;>
    norm_num [Simulation.new, Simulation.next_step, Simulation.snapshot, Simulation.time,
      Simulation.probability_distribution, hmLookup, hmKeys, hmInsert, hmUpsert,
      CachedFunction.new, CachedFunction.call_many_parallel, CachedFunction.bypass,
      Simulation.row_ok, Simulation.row_sum, Simulation.round_rust,
      Simulation.new_distribution, Simulation.intern_states, Simulation.intern_transitions,
      Simulation.graph_update, DiGraph.add_node, DiGraph.find_node, DiGraph.update_edge,
      DiGraph.upd_edges, stay_generator, List.count_cons]

section ListMax

theorem le_foldr_max (l : List Nat) (k : Nat) (h : k ∈ l) : k ≤ l.foldr max 0 := by
  induction l with
  | nil => cases h
  | cons x rest ih =>
      rcases List.mem_cons.mp h with hx | hx
      · subst hx
        exact le_max_left _ _
      · exact le_trans (ih hx) (le_max_right _ _)

theorem foldr_max_append (l : List Nat) (x : Nat) :
    (l ++ [x]).foldr max 0 = max (l.foldr max 0) x := by
  induction l with
  | nil => simp
  | cons y rest ih =>
      simp only [List.cons_append, List.foldr_cons, ih]
      rw [max_assoc]

theorem succ_foldr_max_not_mem (l : List Nat) : l.foldr max 0 + 1 ∉ l := by
  intro h
  exact absurd (le_foldr_max l _ h) (by omega)

end ListMax

theorem hmKeys_insert_of_not_mem {K V : Type} [DecidableEq K]
    (m : HMap K V) (k : K) (v : V) (h : k ∉ hmKeys m) :
    hmKeys (hmInsert m k v) = hmKeys m ++ [k] := by
  rw [hmInsert_of_not_mem m k v h]
  simp [hmKeys]

theorem time_hmInsert_succ {V : Type} (m : HMap Time V) (v : V) :
    (hmKeys (hmInsert m ((hmKeys m).foldr max 0 + 1) v)).foldr max 0 =
      (hmKeys m).foldr max 0 + 1 := by
  rw [hmKeys_insert_of_not_mem _ _ _ (succ_foldr_max_not_mem _), foldr_max_append]
  exact Nat.max_eq_right (Nat.le_succ _)

namespace Simulation

variable {S T : Type} [DecidableEq S] [DecidableEq T]

theorem next_step_function (sim : Simulation S T) :
    sim.next_step.1.state_transition_generator.function =
      sim.state_transition_generator.function := by
  rw [next_step_eq]
  by_cases h : sim.gen_rows.all row_ok
  · rw [if_pos h]
    rfl
  · rw [if_neg h]
    rfl

theorem next_step_dists_of_ok (sim : Simulation S T)
    (h : sim.gen_rows.all row_ok = true) :
    sim.next_step.1.probability_distributions =
      hmInsert sim.probability_distributions (sim.time + 1)
        (new_distribution sim.gen_rows sim.snapshot) := by
  rw [next_step_of_ok_rows sim h]

theorem next_step_dists_of_bad (sim : Simulation S T)
    (h : sim.gen_rows.all row_ok = false) :
    sim.next_step.1.probability_distributions = sim.probability_distributions := by
  rw [next_step_of_bad_row sim h]

theorem next_step_time_of_ok (sim : Simulation S T)
    (h : sim.gen_rows.all row_ok = true) :
    sim.next_step.1.time = sim.time + 1 := by
  show (hmKeys sim.next_step.1.probability_distributions).foldr max 0 = sim.time + 1
  rw [next_step_dists_of_ok sim h]
  exact time_hmInsert_succ _ _

omit [DecidableEq S] [DecidableEq T] in
/-- Total `pᵢ`-weighted mass of exactly row-stochastic successor rows. -/
theorem sum_rows_mass (g : S → OutgoingTransitions S T)
    (hrow : ∀ s, row_sum (g s) = 1) (l : List (S × Probability)) :
    (((l.map (fun p => g p.1)).zip l).map (fun rp => rp.2.2 * row_sum rp.1)).sum =
      dist_sum l := by
  induction l with
  | nil => simp [dist_sum]
  | cons p rest ih =>
      simp only [List.map_cons, List.zip_cons_cons, List.sum_cons, hrow, mul_one]
      rw [ih]
      simp [dist_sum]

omit [DecidableEq T] in
/-- After a successful step the published distribution has the same total
mass as the snapshot it was computed from, provided every successor row of
the raw generator sums exactly to 1. -/
theorem dist_sum_new_distribution_of_rows_one (sim : Simulation S T)
    (hrow : ∀ s, row_sum (sim.state_transition_generator.function s) = 1) :
    dist_sum (new_distribution sim.gen_rows sim.snapshot) = dist_sum sim.snapshot := by
  rw [dist_sum_new_distribution]
  exact sum_rows_mass _ hrow _

/-- The mass invariant used for C2: the generator function is the fixed
`f`, every recorded distribution has total mass 1, and the current time is
recorded. -/
def mass_invariant (f : S → OutgoingTransitions S T) (sim : Simulation S T) : Prop :=
  sim.state_transition_generator.function = f ∧
    (∀ t d, hmLookup sim.probability_distributions t = some d → dist_sum d = 1) ∧
    (hmLookup sim.probability_distributions sim.time).isSome

theorem mass_invariant_next_step {f : S → OutgoingTransitions S T}
    (hrow : ∀ s, row_sum (f s) = 1) {sim : Simulation S T}
    (h : mass_invariant f sim) : mass_invariant f sim.next_step.1 := by
  obtain ⟨hf, hsum, hsome⟩ := h
  have hf' : sim.next_step.1.state_transition_generator.function = f := by
    rw [next_step_function]
    exact hf
  rcases Bool.eq_false_or_eq_true (sim.gen_rows.all row_ok) with hall | hall
  · obtain ⟨d0, hd0⟩ := Option.isSome_iff_exists.mp hsome
    have hsnap : sim.snapshot = d0 := by
      simp [snapshot, probability_distribution, hd0]
    have hnd : dist_sum (new_distribution sim.gen_rows sim.snapshot) = 1 := by
      rw [dist_sum_new_distribution_of_rows_one sim (by rw [hf]; exact hrow), hsnap]
      exact hsum _ _ hd0
    refine ⟨hf', ?_, ?_⟩
    · intro t d hlk
      rw [next_step_dists_of_ok sim hall] at hlk
      by_cases ht : t = sim.time + 1
      · subst ht
        rw [hmLookup_insert_self] at hlk
        cases hlk
        exact hnd
      · rw [hmLookup_insert_ne _ _ _ _ ht] at hlk
        exact hsum _ _ hlk
    · rw [next_step_dists_of_ok sim hall, next_step_time_of_ok sim hall,
        hmLookup_insert_self]
      rfl
  · refine ⟨hf', ?_, ?_⟩
    · intro t d hlk
      rw [next_step_dists_of_bad sim hall] at hlk
      exact hsum _ _ hlk
    · show (hmLookup sim.next_step.1.probability_distributions
        ((hmKeys sim.next_step.1.probability_distributions).foldr max 0)).isSome
      rw [next_step_dists_of_bad sim hall]
      exact hsome

end Simulation

namespace Simulation

variable {S T : Type} [DecidableEq S] [DecidableEq T]

theorem mass_invariant_traversal_direct {f : S → OutgoingTransitions S T}
    (hrow : ∀ s, row_sum (f s) = 1) :
    ∀ (fuel n : Nat) (sim : Simulation S T), mass_invariant f sim →
      mass_invariant f (traversal_direct fuel n sim).1 := by
  intro fuel
  induction fuel with
  | zero =>
      intro n sim h
      rw [traversal_direct]
      split
      · exact h
      · exact h
  | succ fuel ih =>
      intro n sim h
      rw [traversal_direct]
      split
      · exact h
      · cases hstep : sim.next_step.2 with
        | error e =>
            simp only [hstep]
            exact mass_invariant_next_step hrow h
        | ok d =>
            simp only [hstep]
            exact ih _ _ (mass_invariant_next_step hrow h)

theorem traversal_clone_dists :
    ∀ (fuel n : Nat) (self clone : Simulation S T),
      (traversal_clone fuel n self clone).1.probability_distributions =
        self.probability_distributions := by
  intro fuel
  induction fuel with
  | zero =>
      intro n self clone
      rw [traversal_clone]
      split
      · rfl
      · rfl
  | succ fuel ih =>
      intro n self clone
      rw [traversal_clone]
      split
      · rfl
      · cases hstep : clone.next_step.2 with
        | error e => simp only [hstep]
        | ok d =>
            simp only [hstep]
            rw [ih]

theorem next_step_function_eq {f : S → OutgoingTransitions S T}
    (sim : Simulation S T)
    (h : sim.state_transition_generator.function = f) :
    sim.next_step.1.state_transition_generator.function = f := by
  rw [next_step_function]
  exact h

theorem traversal_clone_function {f : S → OutgoingTransitions S T} :
    ∀ (fuel n : Nat) (self clone : Simulation S T),
      self.state_transition_generator.function = f →
      clone.state_transition_generator.function = f →
      (traversal_clone fuel n self clone).1.state_transition_generator.function = f := by
  intro fuel
  induction fuel with
  | zero =>
      intro n self clone hs hc
      rw [traversal_clone]
      split
      · exact hs
      · exact hs
  | succ fuel ih =>
      intro n self clone hs hc
      rw [traversal_clone]
      split
      · exact hs
      · cases hstep : clone.next_step.2 with
        | error e =>
            simp only [hstep]
            exact hs
        | ok d =>
            simp only [hstep]
            exact ih _ _ _ (next_step_function_eq clone hc) (next_step_function_eq clone hc)

theorem mass_invariant_traversal_clone {f : S → OutgoingTransitions S T}
    (fuel n : Nat) (self clone : Simulation S T)
    (h : mass_invariant f self)
    (hc : clone.state_transition_generator.function = f) :
    mass_invariant f (traversal_clone fuel n self clone).1 := by
  refine ⟨traversal_clone_function fuel n self clone h.1 hc, ?_, ?_⟩
  · intro t d hlk
    rw [traversal_clone_dists] at hlk
    exact h.2.1 _ _ hlk
  · show (hmLookup (traversal_clone fuel n self clone).1.probability_distributions
      ((hmKeys (traversal_clone fuel n self clone).1.probability_distributions).foldr
        max 0)).isSome
    rw [traversal_clone_dists]
    exact h.2.2

theorem mass_invariant_apply_op {f : S → OutgoingTransitions S T}
    (hrow : ∀ s, row_sum (f s) = 1) {sim : Simulation S T}
    (h : mass_invariant f sim) (op : EngineOp) :
    mass_invariant f (apply_op sim op) := by
  cases op with
  | step => exact mass_invariant_next_step hrow h
  | traversal b fuel =>
      cases b with
      | true =>
          exact mass_invariant_traversal_clone fuel 0 sim sim h h.1
      | false =>
          exact mass_invariant_traversal_direct hrow fuel 0 sim h
  | uniform_steady fuel => exact mass_invariant_traversal_clone fuel 0 sim sim h h.1
  | rate_matrix fuel => exact mass_invariant_traversal_clone fuel 0 sim sim h h.1

theorem mass_invariant_run_ops {f : S → OutgoingTransitions S T}
    (hrow : ∀ s, row_sum (f s) = 1) {sim : Simulation S T}
    (h : mass_invariant f sim) (ops : List EngineOp) :
    mass_invariant f (run_ops sim ops) := by
  induction ops generalizing sim with
  | nil => exact h
  | cons op rest ih => exact ih (mass_invariant_apply_op hrow h op)

end Simulation

/-- **C2 (counterexample).** `new_with_distribution` performs no
validation: constructing an engine from the distribution `{0 ↦ 1/2}`
records at time 0 a distribution whose probabilities sum to 1/2, which is
not within 1e-10 of 1.0 — the claim's invariant fails already at
construction. -/
theorem C2_counterexample :
    hmLookup (Simulation.new_with_distribution [((0 : ℤ), (1 : ℚ) / 2)]
        walk_generator).probability_distributions 0 =
      some [((0 : ℤ), (1 : ℚ) / 2)] ∧
      Simulation.dist_sum [((0 : ℤ), (1 : ℚ) / 2)] = 1 / 2 ∧
      ¬(|Simulation.dist_sum [((0 : ℤ), (1 : ℚ) / 2)] - 1| ≤ 1 / 10 ^ 10) := by
  refine ⟨by norm_num [Simulation.new_with_distribution, hmLookup], ?_, ?_⟩
  · norm_num [Simulation.dist_sum]
  · have h : Simulation.dist_sum [((0 : ℤ), (1 : ℚ) / 2)] = 1 / 2 := by
      norm_num [Simulation.dist_sum]
    rw [h]
    rw [show ((1 : ℚ) / 2 - 1) = -(1 / 2) by norm_num, abs_neg,
      abs_of_pos (by norm_num : (0 : ℚ) < 1 / 2)]
    norm_num

/-- **C2 (amended).** For every engine built by `new`, or by
`new_with_distribution` from a map whose probabilities sum exactly to 1
(the constructor does not check this), over a generator all of whose
successor lists sum exactly to 1, after any sequence of engine
operations every recorded distribution has probabilities summing exactly
to 1 — in particular within the claimed 1e-10 tolerance. -/
theorem C2_history_mass_one {S T : Type} [DecidableEq S] [DecidableEq T]
    (f : S → OutgoingTransitions S T) (hrow : ∀ s, Simulation.row_sum (f s) = 1)
    (sim0 : Simulation S T)
    (hinit : (∃ s, sim0 = Simulation.new s f) ∨
      (∃ d, Simulation.dist_sum d = 1 ∧ sim0 = Simulation.new_with_distribution d f))
    (ops : List Simulation.EngineOp) (t : Time) (d : HMap S Probability)
    (hlk : hmLookup (Simulation.run_ops sim0 ops).probability_distributions t = some d) :
    Simulation.dist_sum d = 1 ∧ |Simulation.dist_sum d - 1| ≤ 1 / 10 ^ 10 := by
  have hbase : Simulation.mass_invariant f sim0 := by
    rcases hinit with ⟨s, hs⟩ | ⟨d0, hd0, hs⟩
    · subst hs
      refine ⟨rfl, ?_, ?_⟩
      · intro t d hl
        simp only [Simulation.new, hmLookup] at hl
        by_cases ht : (0 : Time) = t
        · rw [if_pos ht] at hl
          cases hl
          simp [Simulation.dist_sum]
        · rw [if_neg ht] at hl
          cases hl
      · simp [Simulation.new, Simulation.time, hmKeys, hmLookup]
    · subst hs
      refine ⟨rfl, ?_, ?_⟩
      · intro t d hl
        simp only [Simulation.new_with_distribution, hmLookup] at hl
        by_cases ht : (0 : Time) = t
        · rw [if_pos ht] at hl
          cases hl
          exact hd0
        · rw [if_neg ht] at hl
          cases hl
      · simp [Simulation.new_with_distribution, Simulation.time, hmKeys, hmLookup]
  have hinv := Simulation.mass_invariant_run_ops hrow hbase ops
  have h1 := hinv.2.1 t d hlk
  refine ⟨h1, ?_⟩
  rw [h1]
  simp

/-- Witness for C2: the atomic random-walk engine after one step has a
distribution of total mass exactly 1 at time 1. -/
theorem C2_witness :
    (∀ s, Simulation.row_sum (walk_generator s) = 1) ∧
      Simulation.dist_sum [((1 : ℤ), (1 : ℚ) / 2), ((-1 : ℤ), (1 : ℚ) / 2)] = 1 ∧
      |Simulation.dist_sum [((1 : ℤ), (1 : ℚ) / 2), ((-1 : ℤ), (1 : ℚ) / 2)] - 1| ≤
        1 / 10 ^ 10 := by
  have hrow : ∀ s, Simulation.row_sum (walk_generator s) = 1 := by
    intro s
    norm_num [Simulation.row_sum, walk_generator]
  have hlk : hmLookup (Simulation.run_ops (Simulation.new (0 : ℤ) walk_generator)
      [Simulation.EngineOp.step]).probability_distributions 1 =
      some [((1 : ℤ), (1 : ℚ) / 2), ((-1 : ℤ), (1 : ℚ) / 2)] := by
    norm_num [Simulation.run_ops, Simulation.apply_op, Simulation.new,
      Simulation.next_step, Simulation.snapshot, Simulation.time,
      Simulation.probability_distribution, hmLookup, hmKeys, hmInsert, hmUpsert,
      CachedFunction.new, CachedFunction.call_many_parallel, CachedFunction.bypass,
      Simulation.row_ok, Simulation.row_sum, Simulation.round_rust,
      Simulation.new_distribution, Simulation.intern_states,
      Simulation.intern_transitions, Simulation.graph_update, DiGraph.add_node,
      DiGraph.find_node, DiGraph.update_edge, DiGraph.upd_edges, walk_generator]
  have := C2_history_mass_one walk_generator hrow (Simulation.new (0 : ℤ) walk_generator)
    (Or.inl ⟨0, rfl⟩) [Simulation.EngineOp.step] 1 _ hlk
  exact ⟨hrow, this.1, this.2⟩

namespace Simulation

variable {S T : Type} [DecidableEq S] [DecidableEq T]

/-- The contiguity invariant used for C10: a time is recorded in the
distribution history exactly when it is at most the current time. -/
def contiguous_history (sim : Simulation S T) : Prop :=
  ∀ t : Time, (hmLookup sim.probability_distributions t).isSome ↔ t ≤ sim.time

theorem contiguous_history_next_step {sim : Simulation S T}
    (h : contiguous_history sim) : contiguous_history sim.next_step.1 := by
  rcases Bool.eq_false_or_eq_true (sim.gen_rows.all row_ok) with hall | hall
  · intro t
    rw [next_step_dists_of_ok sim hall, next_step_time_of_ok sim hall]
    by_cases ht : t = sim.time + 1
    · subst ht
      rw [hmLookup_insert_self]
      simp
    · rw [hmLookup_insert_ne _ _ _ _ ht, h t]
      constructor
      · exact fun hh => Nat.le_succ_of_le hh
      · exact fun hh => Nat.lt_succ_iff.mp (Nat.lt_of_le_of_ne hh ht)
  · intro t
    have hd := next_step_dists_of_bad sim hall
    have htime : sim.next_step.1.time = sim.time := by
      show (hmKeys sim.next_step.1.probability_distributions).foldr max 0 = sim.time
      rw [hd]
      rfl
    rw [hd, htime]
    exact h t

theorem contiguous_history_traversal_direct :
    ∀ (fuel n : Nat) (sim : Simulation S T), contiguous_history sim →
      contiguous_history (traversal_direct fuel n sim).1 := by
  intro fuel
  induction fuel with
  | zero =>
      intro n sim h
      rw [traversal_direct]
      split
      · exact h
      · exact h
  | succ fuel ih =>
      intro n sim h
      rw [traversal_direct]
      split
      · exact h
      · cases hstep : sim.next_step.2 with
        | error e =>
            simp only [hstep]
            exact contiguous_history_next_step h
        | ok d =>
            simp only [hstep]
            exact ih _ _ (contiguous_history_next_step h)

theorem contiguous_history_traversal_clone (fuel n : Nat)
    (self clone : Simulation S T) (h : contiguous_history self) :
    contiguous_history (traversal_clone fuel n self clone).1 := by
  intro t
  have hd := traversal_clone_dists fuel n self clone
  have htime : (traversal_clone fuel n self clone).1.time = self.time := by
    show (hmKeys (traversal_clone fuel n self clone).1.probability_distributions).foldr
      max 0 = self.time
    rw [hd]
    rfl
  rw [hd, htime]
  exact h t

theorem contiguous_history_run_ops {sim : Simulation S T}
    (h : contiguous_history sim) (ops : List EngineOp) :
    contiguous_history (run_ops sim ops) := by
  induction ops generalizing sim with
  | nil => exact h
  | cons op rest ih =>
      refine ih ?_
      cases op with
      | step => exact contiguous_history_next_step h
      | traversal b fuel =>
          cases b with
          | true => exact contiguous_history_traversal_clone fuel 0 sim sim h
          | false => exact contiguous_history_traversal_direct fuel 0 sim h
      | uniform_steady fuel => exact contiguous_history_traversal_clone fuel 0 sim sim h
      | rate_matrix fuel => exact contiguous_history_traversal_clone fuel 0 sim sim h

end Simulation

/-- **C10.** For every engine built by a constructor and after any
sequence of engine operations, the recorded times form exactly the
contiguous range `{0, …, time()}`: `probability_distribution t` succeeds
(returns a distribution) precisely when `t ≤ time()` — so time 0 is
always recorded, each successful `next_step` extends the range by
`time()+1`, and nothing is ever removed. -/
theorem C10_history_times_contiguous {S T : Type} [DecidableEq S] [DecidableEq T]
    (f : S → OutgoingTransitions S T) (sim0 : Simulation S T)
    (hinit : Simulation.built_from f sim0) (ops : List Simulation.EngineOp) :
    ∀ t : Time,
      ((Simulation.run_ops sim0 ops).probability_distribution t).isSome ↔
        t ≤ (Simulation.run_ops sim0 ops).time := by
  have hbase : Simulation.contiguous_history sim0 := by
    rcases hinit with ⟨s, hs⟩ | ⟨d, hs⟩ <;> subst hs <;>
      · intro t
        by_cases ht : t = 0
        · subst ht
          simp [Simulation.new, Simulation.new_with_distribution, hmLookup,
            Simulation.time, hmKeys]
        · simp only [Simulation.new, Simulation.new_with_distribution, hmLookup,
            Simulation.time, hmKeys]
          rw [if_neg (fun hh => ht hh.symm)]
          simp only [hmLookup, Option.isSome_none, Bool.false_eq_true, false_iff]
          exact fun hh => ht (Nat.le_zero.mp hh)
  exact Simulation.contiguous_history_run_ops hbase ops

/-- Witness for C10: the atomic random-walk engine after one step records
exactly the times `0` and `1`. -/
theorem C10_witness :
    Simulation.built_from walk_generator (Simulation.new (0 : ℤ) walk_generator) ∧
      (∀ t : Time,
        ((Simulation.run_ops (Simulation.new (0 : ℤ) walk_generator)
            [Simulation.EngineOp.step]).probability_distribution t).isSome ↔
          t ≤ (Simulation.run_ops (Simulation.new (0 : ℤ) walk_generator)
            [Simulation.EngineOp.step]).time) := by
  have hb : Simulation.built_from walk_generator (Simulation.new (0 : ℤ) walk_generator) :=
    Or.inl ⟨0, rfl⟩
  exact ⟨hb, C10_history_times_contiguous walk_generator _ hb [Simulation.EngineOp.step]⟩

namespace Simulation

variable {S T : Type} [DecidableEq S] [DecidableEq T]

/-- `Simulation::state_transition_graph()` (the exported value graph):
nodes are the states behind the internal digest nodes (identity under the
injective-digest model); every internal edge is mapped to
`(source state, target state, (transition, probability))` through the
registries, then folded into a fresh graph with find-or-add of both
endpoints and `update_edge`. The `unwrap`ed registry and node-index
lookups are total in the model (`filterMap` keeps the well-formed
entries, which in practice is all of them). -/
def value_edge_fold (g : DiGraph S (T × Probability))
    (t : S × S × (T × Probability)) : DiGraph S (T × Probability) :=
  let sp : Nat × DiGraph S (T × Probability) :=
    match g.find_node t.1 with
    | some i => (i, g)
    | none => (g.nodes.length, g.add_node t.1)
  let tp : Nat × DiGraph S (T × Probability) :=
    match sp.2.find_node t.2.1 with
    | some i => (i, sp.2)
    | none => (sp.2.nodes.length, sp.2.add_node t.2.1)
  tp.2.update_edge sp.1 tp.1 t.2.2

def value_graph (sim : Simulation S T) : DiGraph S (T × Probability) :=
  let internal := sim.state_transition_graph
  let edge_triples : List (S × S × (T × Probability)) :=
    internal.edges.filterMap
      (fun e =>
        match internal.nodes.get? e.1, internal.nodes.get? e.2.1 with
        | some source, some target => some (source, target, e.2.2)
        | _, _ => none)
  edge_triples.foldl value_edge_fold ⟨internal.nodes, []⟩

end Simulation

/-- C9's invariant: no two edges of the list share the ordered
`(source, target)` pair. -/
def edges_pairwise_unique {E : Type} (l : List (Nat × Nat × E)) : Prop :=
  l.Pairwise (fun a b => ¬(a.1 = b.1 ∧ a.2.1 = b.2.1))

theorem upd_edges_mem {E : Type} (l : List (Nat × Nat × E)) (a b : Nat) (w : E) :
    ∀ x ∈ DiGraph.upd_edges l a b w, x ∈ l ∨ x = (a, b, w) := by
  induction l with
  | nil =>
      intro x hx
      simp [DiGraph.upd_edges] at hx
      exact Or.inr hx
  | cons e rest ih =>
      intro x hx
      rw [DiGraph.upd_edges] at hx
      by_cases hc : e.1 = a ∧ e.2.1 = b
      · rw [if_pos hc] at hx
        rcases List.mem_cons.mp hx with hx | hx
        · exact Or.inr hx
        · exact Or.inl (List.mem_cons_of_mem _ hx)
      · rw [if_neg hc] at hx
        rcases List.mem_cons.mp hx with hx | hx
        · exact Or.inl (hx ▸ List.mem_cons_self _ _)
        · rcases ih x hx with hx' | hx'
          · exact Or.inl (List.mem_cons_of_mem _ hx')
          · exact Or.inr hx'

theorem upd_edges_unique {E : Type} (l : List (Nat × Nat × E)) (a b : Nat) (w : E)
    (h : edges_pairwise_unique l) :
    edges_pairwise_unique (DiGraph.upd_edges l a b w) := by
  induction l with
  | nil => simp [DiGraph.upd_edges, edges_pairwise_unique]
  | cons e rest ih =>
      rw [DiGraph.upd_edges]
      rcases List.pairwise_cons.mp h with ⟨hhead, htail⟩
      by_cases hc : e.1 = a ∧ e.2.1 = b
      · rw [if_pos hc]
        refine List.pairwise_cons.mpr ⟨?_, htail⟩
        intro x hx hcontra
        exact hhead x hx ⟨hc.1 ▸ hcontra.1, hc.2 ▸ hcontra.2⟩
      · rw [if_neg hc]
        refine List.pairwise_cons.mpr ⟨?_, ih htail⟩
        intro x hx hcontra
        rcases upd_edges_mem rest a b w x hx with hx' | hx'
        · exact hhead x hx' hcontra
        · apply hc
          rw [hx'] at hcontra
          exact ⟨hcontra.1, hcontra.2⟩

theorem upd_edges_overwrite {E : Type} (l : List (Nat × Nat × E)) (a b : Nat) (w : E)
    (h : ∃ e ∈ l, e.1 = a ∧ e.2.1 = b) :
    (DiGraph.upd_edges l a b w).length = l.length ∧
      (a, b, w) ∈ DiGraph.upd_edges l a b w := by
  induction l with
  | nil =>
      obtain ⟨e, he, _⟩ := h
      cases he
  | cons e rest ih =>
      rw [DiGraph.upd_edges]
      by_cases hc : e.1 = a ∧ e.2.1 = b
      · rw [if_pos hc]
        exact ⟨by simp, List.mem_cons_self _ _⟩
      · rw [if_neg hc]
        obtain ⟨e', he', hee⟩ := h
        rcases List.mem_cons.mp he' with he' | he'
        · exact absurd (he' ▸ hee) hc
        · obtain ⟨hl, hm⟩ := ih ⟨e', he', hee⟩
          exact ⟨by simp [hl], List.mem_cons_of_mem _ hm⟩

theorem update_edge_unique {N E : Type} (g : DiGraph N E) (a b : Nat) (w : E)
    (h : edges_pairwise_unique g.edges) :
    edges_pairwise_unique (g.update_edge a b w).edges :=
  upd_edges_unique g.edges a b w h

namespace Simulation

variable {S T : Type} [DecidableEq S] [DecidableEq T]

omit [DecidableEq T] in
theorem graph_update_unique (stp : List (OutgoingTransitions S T))
    (spd : List (S × Probability)) (g0 : DiGraph S (T × Probability))
    (h : edges_pairwise_unique g0.edges) :
    edges_pairwise_unique (graph_update stp spd g0).edges := by
  unfold graph_update
  generalize stp.zip spd = l
  induction l generalizing g0 with
  | nil => exact h
  | cons rp rest ih =>
      rw [List.foldl_cons]
      refine ih _ ?_
      generalize hg : g0 = g
      rw [hg] at h
      clear hg
      induction rp.1 generalizing g with
      | nil => exact h
      | cons e row ihr =>
          rw [List.foldl_cons]
          refine ihr _ ?_
          cases hf : g.find_node e.1 with
          | some target =>
              simp only [hf]
              exact update_edge_unique _ _ _ _ h
          | none =>
              simp only [hf]
              exact update_edge_unique _ _ _ _ h

theorem next_step_graph_unique {sim : Simulation S T}
    (h : edges_pairwise_unique sim.state_transition_graph.edges) :
    edges_pairwise_unique sim.next_step.1.state_transition_graph.edges := by
  rcases Bool.eq_false_or_eq_true (sim.gen_rows.all row_ok) with hall | hall
  · rw [next_step_of_ok_rows sim hall]
    exact graph_update_unique _ _ _ h
  · rw [next_step_of_bad_row sim hall]
    exact h

theorem traversal_direct_graph_unique :
    ∀ (fuel n : Nat) (sim : Simulation S T),
      edges_pairwise_unique sim.state_transition_graph.edges →
      edges_pairwise_unique (traversal_direct fuel n sim).1.state_transition_graph.edges := by
  intro fuel
  induction fuel with
  | zero =>
      intro n sim h
      rw [traversal_direct]
      split
      · exact h
      · exact h
  | succ fuel ih =>
      intro n sim h
      rw [traversal_direct]
      split
      · exact h
      · cases hstep : sim.next_step.2 with
        | error e =>
            simp only [hstep]
            exact next_step_graph_unique h
        | ok d =>
            simp only [hstep]
            exact ih _ _ (next_step_graph_unique h)

theorem traversal_clone_graph_unique :
    ∀ (fuel n : Nat) (self clone : Simulation S T),
      edges_pairwise_unique self.state_transition_graph.edges →
      edges_pairwise_unique clone.state_transition_graph.edges →
      edges_pairwise_unique (traversal_clone fuel n self clone).1.state_transition_graph.edges := by
  intro fuel
  induction fuel with
  | zero =>
      intro n self clone hs hc
      rw [traversal_clone]
      split
      · exact hs
      · exact hs
  | succ fuel ih =>
      intro n self clone hs hc
      rw [traversal_clone]
      split
      · exact hs
      · cases hstep : clone.next_step.2 with
        | error e =>
            simp only [hstep]
            exact hs
        | ok d =>
            simp only [hstep]
            exact ih _ _ _ (next_step_graph_unique hc) (next_step_graph_unique hc)

theorem run_ops_graph_unique {sim : Simulation S T}
    (h : edges_pairwise_unique sim.state_transition_graph.edges)
    (ops : List EngineOp) :
    edges_pairwise_unique (run_ops sim ops).state_transition_graph.edges := by
  induction ops generalizing sim with
  | nil => exact h
  | cons op rest ih =>
      refine ih ?_
      cases op with
      | step => exact next_step_graph_unique h
      | traversal b fuel =>
          cases b with
          | true => exact traversal_clone_graph_unique fuel 0 sim sim h h
          | false => exact traversal_direct_graph_unique fuel 0 sim h
      | uniform_steady fuel => exact traversal_clone_graph_unique fuel 0 sim sim h h
      | rate_matrix fuel => exact traversal_clone_graph_unique fuel 0 sim sim h h

omit [DecidableEq T] in
theorem value_edge_fold_unique (g : DiGraph S (T × Probability))
    (t : S × S × (T × Probability)) (h : edges_pairwise_unique g.edges) :
    edges_pairwise_unique (value_edge_fold g t).edges := by
  unfold value_edge_fold
  cases hs : g.find_node t.1 with
  | some i =>
      simp only [hs]
      cases ht : g.find_node t.2.1 with
      | some j =>
          simp only [ht]
          exact update_edge_unique _ _ _ _ h
      | none =>
          simp only [ht]
          exact update_edge_unique _ _ _ _ h
  | none =>
      simp only [hs]
      cases ht : (g.add_node t.1).find_node t.2.1 with
      | some j =>
          simp only [ht]
          exact update_edge_unique _ _ _ _ h
      | none =>
          simp only [ht]
          exact update_edge_unique _ _ _ _ h

omit [DecidableEq T] in
theorem value_graph_unique (sim : Simulation S T) :
    edges_pairwise_unique (value_graph sim).edges := by
  unfold value_graph
  dsimp only
  generalize (sim.state_transition_graph.edges.filterMap _ :
    List (S × S × (T × Probability))) = l
  have h0 : edges_pairwise_unique
      (⟨sim.state_transition_graph.nodes, []⟩ : DiGraph S (T × Probability)).edges :=
    List.Pairwise.nil
  generalize (⟨sim.state_transition_graph.nodes, []⟩ :
    DiGraph S (T × Probability)) = g0 at h0 ⊢
  induction l generalizing g0 with
  | nil => exact h0
  | cons t rest ih =>
      rw [List.foldl_cons]
      exact ih _ (value_edge_fold_unique g0 t h0)

end Simulation

/-- **C9.** In every engine reachable from a constructor by engine
operations, the internal transition graph carries at most one edge per
ordered `(source, target)` node pair, and so does the value graph
returned by `state_transition_graph()` (for any engine at all); moreover
`update_edge` on a pair that already has an edge replaces that edge's
`(transition, probability)` payload — whatever the old label was — and
never adds a parallel edge. -/
theorem C9_at_most_one_edge_per_pair {S T : Type} [DecidableEq S] [DecidableEq T]
    (f : S → OutgoingTransitions S T) (sim0 : Simulation S T)
    (hinit : Simulation.built_from f sim0) (ops : List Simulation.EngineOp) :
    edges_pairwise_unique
        (Simulation.run_ops sim0 ops).state_transition_graph.edges ∧
      edges_pairwise_unique
        (Simulation.value_graph (Simulation.run_ops sim0 ops)).edges ∧
      (∀ (g : DiGraph S (T × Probability)) (a b : Nat) (w : T × Probability),
        (∃ e ∈ g.edges, e.1 = a ∧ e.2.1 = b) →
          (g.update_edge a b w).edges.length = g.edges.length ∧
            (a, b, w) ∈ (g.update_edge a b w).edges) := by
  have hbase : edges_pairwise_unique sim0.state_transition_graph.edges := by
    rcases hinit with ⟨s, hs⟩ | ⟨d, hs⟩ <;> subst hs <;> exact List.Pairwise.nil
  refine ⟨Simulation.run_ops_graph_unique hbase ops,
    Simulation.value_graph_unique _, ?_⟩
  intro g a b w h
  exact upd_edges_overwrite g.edges a b w h

/-- Witness for C9: the random-walk engine after one step and one
cache-only traversal. -/
theorem C9_witness :
    Simulation.built_from walk_generator (Simulation.new (0 : ℤ) walk_generator) ∧
      edges_pairwise_unique
        (Simulation.run_ops (Simulation.new (0 : ℤ) walk_generator)
          [Simulation.EngineOp.step,
           Simulation.EngineOp.traversal true 3]).state_transition_graph.edges := by
  have hb : Simulation.built_from walk_generator (Simulation.new (0 : ℤ) walk_generator) :=
    Or.inl ⟨0, rfl⟩
  exact ⟨hb, (C9_at_most_one_edge_per_pair walk_generator _ hb
    [Simulation.EngineOp.step, Simulation.EngineOp.traversal true 3]).1⟩

namespace Simulation

variable {S T : Type} [DecidableEq S] [DecidableEq T]

/-- The cache-only traversal is the direct traversal of the clone with
the distribution history of `self` left in place: copying back exactly
the known-states registry, the known-transitions registry, the graph and
the memoized generator after every successful step amounts to replacing
every field except the distribution history. -/
theorem traversal_clone_spec :
    ∀ (fuel n : Nat) (clone : Simulation S T) (d0 : HMap Time (HMap S Probability)),
      (traversal_direct fuel n clone).2 ≠ TraversalOutcome.failed →
      traversal_clone fuel n { clone with probability_distributions := d0 } clone =
        ({ (traversal_direct fuel n clone).1 with probability_distributions := d0 },
         (traversal_direct fuel n clone).2) := by
  intro fuel
  induction fuel with
  | zero =>
      intro n clone d0 hne
      rw [traversal_clone, traversal_direct]
      by_cases hc : n = clone.known_states.length
      · rw [if_pos hc, if_pos hc]
      · rw [if_neg hc, if_neg hc]
  | succ fuel ih =>
      intro n clone d0 hne
      rw [traversal_direct] at hne
      rw [traversal_clone, traversal_direct]
      by_cases hc : n = clone.known_states.length
      · rw [if_pos hc, if_pos hc]
      · rw [if_neg hc] at hne
        rw [if_neg hc, if_neg hc]
        dsimp only at hne ⊢
        cases hstep : clone.next_step.2 with
        | error e =>
            rw [hstep] at hne
            exact absurd rfl hne
        | ok d =>
            rw [hstep] at hne
            simp only [hstep]
            exact ih _ _ _ hne

end Simulation

/-- **C7.** `full_traversal` in its distribution-preserving mode (the
source's `modify_cache_only == true`, the spec's
`modify_distribution == false`) operates on an internal clone: the
distribution history of the engine is entirely unchanged — no new time
step is recorded — and, whenever the loop does not abort in a panic, the
resulting engine is exactly the direct-traversal result with only the
known-states registry, known-transitions registry, transition graph and
memoization cache copied back, i.e. with the original distribution
history put back in place of the stepped one. -/
theorem C7_cache_only_traversal_frame {S T : Type} [DecidableEq S] [DecidableEq T]
    (sim : Simulation S T) (fuel : Nat) :
    (sim.full_traversal true fuel).1.probability_distributions =
        sim.probability_distributions ∧
      ((sim.full_traversal false fuel).2 ≠ Simulation.TraversalOutcome.failed →
        sim.full_traversal true fuel =
          ({ (sim.full_traversal false fuel).1 with
             probability_distributions := sim.probability_distributions },
           (sim.full_traversal false fuel).2)) := by
  constructor
  · exact Simulation.traversal_clone_dists fuel 0 sim sim
  · intro hne
    have h := Simulation.traversal_clone_spec fuel 0 sim
      sim.probability_distributions hne
    exact h

/-- Witness for C7: the 5-cycle engine; its direct traversal with fuel 10
completes without a panic, so the cache-only traversal equals the direct
result with the original one-entry history restored. -/
theorem C7_witness :
    (((Simulation.new (0 : ℤ) cycle_generator).full_traversal false 10).2 ≠
        Simulation.TraversalOutcome.failed) ∧
      ((Simulation.new (0 : ℤ) cycle_generator).full_traversal true 10).1.probability_distributions =
        (Simulation.new (0 : ℤ) cycle_generator).probability_distributions ∧
      (Simulation.new (0 : ℤ) cycle_generator).full_traversal true 10 =
        ({ ((Simulation.new (0 : ℤ) cycle_generator).full_traversal false 10).1 with
           probability_distributions :=
             (Simulation.new (0 : ℤ) cycle_generator).probability_distributions },
         ((Simulation.new (0 : ℤ) cycle_generator).full_traversal false 10).2) := by
  have hval : ((Simulation.new (0 : ℤ) cycle_generator).full_traversal false 10).2 =
      Simulation.TraversalOutcome.completed := by
    norm_num [Simulation.new, Simulation.next_step, Simulation.snapshot, Simulation.time,
      Simulation.probability_distribution, hmLookup, hmKeys, hmInsert, hmUpsert,
      CachedFunction.new, CachedFunction.call_many_parallel, CachedFunction.bypass,
      Simulation.row_ok, Simulation.row_sum, Simulation.round_rust,
      Simulation.new_distribution, Simulation.intern_states, Simulation.intern_transitions,
      Simulation.graph_update, DiGraph.add_node, DiGraph.find_node, DiGraph.update_edge,
      DiGraph.upd_edges, cycle_generator, Simulation.full_traversal,
      Simulation.traversal_direct, List.findIdx?]
  have hne : ((Simulation.new (0 : ℤ) cycle_generator).full_traversal false 10).2 ≠
      Simulation.TraversalOutcome.failed := by
    rw [hval]
    intro hcontra
    cases hcontra
  have h := C7_cache_only_traversal_frame (Simulation.new (0 : ℤ) cycle_generator) 10
  exact ⟨hne, h.1, h.2 hne⟩

set_option maxHeartbeats 1000000 in
/-- **C8 (counterexample).** With the spec's `modify_distribution = false`
semantics (the source's `modify_cache_only = true`), the traversal leaves
the distribution history untouched, so after it `time()` is still 0 and
the distribution at `time()` is the single initial atom — it does not
have four atoms as the claim states. -/
theorem C8_counterexample :
    ((Simulation.new (0 : ℤ) cycle_generator).full_traversal true 10).2 =
        Simulation.TraversalOutcome.completed ∧
      ((Simulation.new (0 : ℤ) cycle_generator).full_traversal true 10).1.time = 0 ∧
      ((Simulation.new (0 : ℤ) cycle_generator).full_traversal
          true 10).1.probability_distribution 0 = some [((0 : ℤ), (1 : ℚ))] ∧
      ∀ d, ((Simulation.new (0 : ℤ) cycle_generator).full_traversal
            true 10).1.probability_distribution
          (((Simulation.new (0 : ℤ) cycle_generator).full_traversal true 10).1.time) =
          some d → d.length ≠ 4 := by
  have hstat : ((Simulation.new (0 : ℤ) cycle_generator).full_traversal true 10).2 =
      Simulation.TraversalOutcome.completed := by
    norm_num [Simulation.new, Simulation.next_step, Simulation.snapshot, Simulation.time,
      Simulation.probability_distribution, hmLookup, hmKeys, hmInsert, hmUpsert,
      CachedFunction.new, CachedFunction.call_many_parallel, CachedFunction.bypass,
      Simulation.row_ok, Simulation.row_sum, Simulation.round_rust,
      Simulation.new_distribution, Simulation.intern_states, Simulation.intern_transitions,
      Simulation.graph_update, DiGraph.add_node, DiGraph.find_node, DiGraph.update_edge,
      DiGraph.upd_edges, cycle_generator, Simulation.full_traversal,
      Simulation.traversal_clone, List.findIdx?]
  have hdists : ((Simulation.new (0 : ℤ) cycle_generator).full_traversal
      true 10).1.probability_distributions = [(0, [((0 : ℤ), (1 : ℚ))])] := by
    show (Simulation.traversal_clone 10 0 (Simulation.new (0 : ℤ) cycle_generator)
      (Simulation.new (0 : ℤ) cycle_generator)).1.probability_distributions = _
    rw [Simulation.traversal_clone_dists]
    rfl
  have htime : ((Simulation.new (0 : ℤ) cycle_generator).full_traversal true 10).1.time = 0 := by
    show (hmKeys ((Simulation.new (0 : ℤ) cycle_generator).full_traversal
      true 10).1.probability_distributions).foldr max 0 = 0
    rw [hdists]
    rfl
  have hpd : ((Simulation.new (0 : ℤ) cycle_generator).full_traversal
      true 10).1.probability_distribution 0 = some [((0 : ℤ), (1 : ℚ))] := by
    show hmLookup ((Simulation.new (0 : ℤ) cycle_generator).full_traversal
      true 10).1.probability_distributions 0 = some [((0 : ℤ), (1 : ℚ))]
    rw [hdists]
    rfl
  refine ⟨hstat, htime, hpd, ?_⟩
  intro d hd
  rw [htime, hpd] at hd
  cases hd
  simp

set_option maxHeartbeats 2000000 in
/-- **C8 (amended).** For the 5-cycle generator started at 0, after the
distribution-preserving traversal (spec's `modify_distribution = false`,
source's `modify_cache_only = true`) the engine has five known states,
two known transitions, and five nodes and ten edges in the exported value
graph — but the distribution history is untouched, so `time()` is 0 and
the distribution at `time()` has exactly one atom. The four-atom
distribution at `time()` (= 3) arises with the distribution-modifying
traversal (source's `full_traversal(false)`), which shows the same
counts. -/
theorem C8_amended_cycle_traversal :
    ((Simulation.new (0 : ℤ) cycle_generator).full_traversal true 10).2 =
        Simulation.TraversalOutcome.completed ∧
      ((Simulation.new (0 : ℤ) cycle_generator).full_traversal
        true 10).1.known_states.length = 5 ∧
      ((Simulation.new (0 : ℤ) cycle_generator).full_traversal
        true 10).1.known_transitions.length = 2 ∧
      (Simulation.value_graph ((Simulation.new (0 : ℤ) cycle_generator).full_traversal
        true 10).1).node_count = 5 ∧
      (Simulation.value_graph ((Simulation.new (0 : ℤ) cycle_generator).full_traversal
        true 10).1).edge_count = 10 ∧
      ((Simulation.new (0 : ℤ) cycle_generator).full_traversal true 10).1.time = 0 ∧
      ((((Simulation.new (0 : ℤ) cycle_generator).full_traversal
          true 10).1.probability_distribution
        (((Simulation.new (0 : ℤ) cycle_generator).full_traversal
          true 10).1.time)).getD []).length = 1 ∧
      ((Simulation.new (0 : ℤ) cycle_generator).full_traversal false 10).2 =
        Simulation.TraversalOutcome.completed ∧
      ((Simulation.new (0 : ℤ) cycle_generator).full_traversal
        false 10).1.known_states.length = 5 ∧
      ((Simulation.new (0 : ℤ) cycle_generator).full_traversal
        false 10).1.known_transitions.length = 2 ∧
      (Simulation.value_graph ((Simulation.new (0 : ℤ) cycle_generator).full_traversal
        false 10).1).node_count = 5 ∧
      (Simulation.value_graph ((Simulation.new (0 : ℤ) cycle_generator).full_traversal
        false 10).1).edge_count = 10 ∧
      ((Simulation.new (0 : ℤ) cycle_generator).full_traversal false 10).1.time = 3 ∧
      ((((Simulation.new (0 : ℤ) cycle_generator).full_traversal
          false 10).1.probability_distribution 3).getD []).length = 4 := by
  have hdir :
      (Simulation.new (0 : ℤ) cycle_generator).full_traversal false 10 =
        (Simulation.mk
          ⟨[0, 1, 4, 2, 3],
           [(0, 1, ("forward", (1 : ℚ)/2)), (0, 2, ("backward", (1 : ℚ)/2)),
            (1, 3, ("forward", (1 : ℚ)/2)), (1, 0, ("backward", (1 : ℚ)/2)),
            (2, 0, ("forward", (1 : ℚ)/2)), (2, 4, ("backward", (1 : ℚ)/2)),
            (3, 4, ("forward", (1 : ℚ)/2)), (3, 1, ("backward", (1 : ℚ)/2)),
            (4, 2, ("forward", (1 : ℚ)/2)), (4, 3, ("backward", (1 : ℚ)/2))]⟩
          [(0, [(0, 1)]), (1, [(1, (1 : ℚ)/2), (4, (1 : ℚ)/2)]),
           (2, [(2, (1 : ℚ)/4), (0, (1 : ℚ)/2), (3, (1 : ℚ)/4)]),
           (3, [(3, (1 : ℚ)/8), (1, (3 : ℚ)/8), (4, (3 : ℚ)/8), (2, (1 : ℚ)/8)])]
          [(0, 0), (1, 1), (4, 4), (2, 2), (3, 3)]
          [("forward", "forward"), ("backward", "backward")]
          (CachedFunction.mk
            [(0, [(1, "forward", (1 : ℚ)/2), (4, "backward", (1 : ℚ)/2)]),
             (1, [(2, "forward", (1 : ℚ)/2), (0, "backward", (1 : ℚ)/2)]),
             (4, [(0, "forward", (1 : ℚ)/2), (3, "backward", (1 : ℚ)/2)]),
             (2, [(3, "forward", (1 : ℚ)/2), (1, "backward", (1 : ℚ)/2)]),
             (3, [(4, "forward", (1 : ℚ)/2), (2, "backward", (1 : ℚ)/2)])]
            cycle_generator
            [0, 1, 4, 2, 0, 3]),
         Simulation.TraversalOutcome.completed) := by
    norm_num [Simulation.new, Simulation.next_step, Simulation.snapshot, Simulation.time,
      Simulation.probability_distribution, hmLookup, hmKeys, hmInsert, hmUpsert,
      CachedFunction.new, CachedFunction.call_many_parallel, CachedFunction.bypass,
      Simulation.row_ok, Simulation.row_sum, Simulation.round_rust,
      Simulation.new_distribution, Simulation.intern_states, Simulation.intern_transitions,
      Simulation.graph_update, DiGraph.add_node, DiGraph.find_node, DiGraph.update_edge,
      DiGraph.upd_edges, cycle_generator, Simulation.full_traversal,
      Simulation.traversal_direct, List.findIdx?]
    exact fun h => h.symm
  have hne : ((Simulation.new (0 : ℤ) cycle_generator).full_traversal false 10).2 ≠
      Simulation.TraversalOutcome.failed := by
    rw [hdir]
    intro hcontra
    cases hcontra
  have hclone :
      (Simulation.new (0 : ℤ) cycle_generator).full_traversal true 10 =
        ({ ((Simulation.new (0 : ℤ) cycle_generator).full_traversal false 10).1 with
           probability_distributions :=
             (Simulation.new (0 : ℤ) cycle_generator).probability_distributions },
         ((Simulation.new (0 : ℤ) cycle_generator).full_traversal false 10).2) :=
    Simulation.traversal_clone_spec 10 0 (Simulation.new (0 : ℤ) cycle_generator)
      (Simulation.new (0 : ℤ) cycle_generator).probability_distributions hne
  rw [hclone, hdir]
  refine ⟨rfl, rfl, rfl, ?_, ?_, rfl, rfl, rfl, rfl, rfl, ?_, ?_, rfl, rfl⟩ <;>
    norm_num [Simulation.value_graph, Simulation.value_edge_fold, DiGraph.add_node,
      DiGraph.find_node, DiGraph.update_edge, DiGraph.upd_edges, DiGraph.node_count,
      DiGraph.edge_count, List.filterMap, List.get?, List.findIdx?]

section QListLemmas

theorem qlist_prod_nonneg (l : List ℚ) (h : ∀ x ∈ l, 0 ≤ x) : 0 ≤ l.prod := by
  induction l with
  | nil => simp
  | cons a rest ih =>
      rw [List.prod_cons]
      exact mul_nonneg (h a (List.mem_cons_self _ _))
        (ih (fun x hx => h x (List.mem_cons_of_mem _ hx)))

theorem qlist_sum_nonneg (l : List ℚ) (h : ∀ x ∈ l, 0 ≤ x) : 0 ≤ l.sum := by
  induction l with
  | nil => simp
  | cons a rest ih =>
      rw [List.sum_cons]
      exact add_nonneg (h a (List.mem_cons_self _ _))
        (ih (fun x hx => h x (List.mem_cons_of_mem _ hx)))

theorem qlist_single_le_sum (l : List ℚ) (h : ∀ x ∈ l, 0 ≤ x) (x : ℚ) (hx : x ∈ l) :
    x ≤ l.sum := by
  induction l with
  | nil => cases hx
  | cons a rest ih =>
      rw [List.sum_cons]
      rcases List.mem_cons.mp hx with hx | hx
      · subst hx
        have := qlist_sum_nonneg rest (fun y hy => h y (List.mem_cons_of_mem _ hy))
        linarith
      · have := ih (fun y hy => h y (List.mem_cons_of_mem _ hy)) hx
        have ha := h a (List.mem_cons_self _ _)
        linarith

theorem qlist_map_div_sum (l : List ℚ) (W : ℚ) :
    (l.map (fun x => x / W)).sum = l.sum / W := by
  induction l with
  | nil => simp
  | cons a rest ih =>
      simp only [List.map_cons, List.sum_cons, ih]
      rw [add_div]

end QListLemmas

/-- Sum of the weight components of a merged-successor map. -/
def wsum {S : Type} (m : HMap S (S × ℚ × String)) : ℚ :=
  (m.map (fun p => p.2.2.1)).sum

theorem wsum_upsert_add {S : Type} [DecidableEq S]
    (m : HMap S (S × ℚ × String)) (k : S) (c : ℚ) (g : String → String)
    (a : S) (str : String) :
    wsum (hmUpsert m k (fun v => (v.1, v.2.1 + c, g v.2.2)) (a, c, str)) =
      wsum m + c := by
  induction m with
  | nil => simp [hmUpsert, wsum]
  | cons p rest ih =>
      by_cases h : p.1 = k
      · simp only [hmUpsert, if_pos h, wsum, List.map_cons, List.sum_cons]
        ring
      · simp only [hmUpsert, if_neg h, wsum, List.map_cons, List.sum_cons] at ih ⊢
        rw [ih]
        ring

/-- Folding triples with pairwise-distinct and fresh keys appends them
one-to-one: no merging happens. -/
theorem fold_upsert_fresh {S : Type} [DecidableEq S]
    (ts : List (S × ℚ × String)) :
    ∀ (acc : HMap S (S × ℚ × String)),
      (ts.map (fun e => e.1)).Nodup →
      (∀ k ∈ ts.map (fun e => e.1), k ∉ hmKeys acc) →
      ts.foldl
        (fun acc e =>
          hmUpsert acc e.1
            (fun v => (v.1, v.2.1 + e.2.1, v.2.2 ++ " | " ++ e.2.2))
            (e.1, e.2.1, e.2.2))
        acc =
        acc ++ ts.map (fun e => (e.1, (e.1, e.2.1, e.2.2))) := by
  induction ts with
  | nil =>
      intro acc _ _
      simp
  | cons e rest ih =>
      intro acc hnd hfresh
      rw [List.map_cons] at hnd hfresh
      have he : e.1 ∉ hmKeys acc := hfresh e.1 (List.mem_cons_self _ _)
      rw [List.foldl_cons, hmUpsert_of_not_mem _ _ _ _ he]
      rw [ih (acc ++ [(e.1, (e.1, e.2.1, e.2.2))]) (List.nodup_cons.mp hnd).2 ?_]
      · simp
      · intro k hk
        rw [hmKeys, List.map_append]
        intro hmem
        rcases List.mem_append.mp hmem with hmem | hmem
        · exact hfresh k (List.mem_cons_of_mem _ hk) hmem
        · simp only [hmKeys, List.map_cons, List.map_nil, List.mem_singleton] at hmem
          exact (List.nodup_cons.mp hnd).1 (hmem ▸ hk)

/-- When the applying rules have pairwise distinct successor states, the
merge phase performs no merging: one entry per applying rule, carrying
that rule's weight and description. -/
theorem new_states_by_weight_of_nodup {S : Type} [DecidableEq S]
    (rules : List (Rule S)) (s : S)
    (hnd : (((rules.filter (fun r => r.applies s)).map
      (fun r => r.apply_action s))).Nodup) :
    new_states_by_weight rules s =
      (rules.filter (fun r => r.applies s)).map
        (fun r => (r.apply_action s, (r.apply_action s, r.weight, r.description))) := by
  unfold new_states_by_weight
  have h := fold_upsert_fresh
    ((rules.filter (fun r => r.applies s)).map
      (fun r => (r.apply_action s, r.weight, r.description))) []
    (by
      rw [List.map_map]
      exact hnd)
    (by
      intro k _
      simp [hmKeys])
  rw [h]
  simp [List.map_map]

/-- Two always-applying rules with weight 1/2 whose actions coincide. -/
def rule_half_fwd_a : Rule ℤ :=
  ⟨"a", fun _ => true, (1 : ℚ) / 2, fun s => s + 1⟩

/-- Second copy with a different description. -/
def rule_half_fwd_b : Rule ℤ :=
  ⟨"b", fun _ => true, (1 : ℚ) / 2, fun s => s + 1⟩

/-- **C4 (counterexample).** With two applying rules of weight 1/2 mapping
state 0 to the same successor 1, the source computes the do-nothing
probability over the *merged* entry of weight 1, obtaining `1 - 1 = 0`,
whereas the claimed joint non-firing probability over the individual
rules is `(1 - 1/2)·(1 - 1/2) = 1/4`. -/
theorem C4_counterexample :
    nothing_probability [rule_half_fwd_a, rule_half_fwd_b] (0 : ℤ) = 0 ∧
      (([rule_half_fwd_a, rule_half_fwd_b].filter
          (fun r => r.applies (0 : ℤ))).map (fun r => 1 - r.weight)).prod = 1 / 4 ∧
      (0 : ℚ) ≠ 1 / 4 := by
  refine ⟨?_, ?_, by norm_num⟩
  · norm_num [nothing_probability, new_states_by_weight, hmUpsert, Rule.applies,
      Rule.apply_action, rule_half_fwd_a, rule_half_fwd_b, List.filter]
  · norm_num [Rule.applies, rule_half_fwd_a, rule_half_fwd_b, List.filter]

/-- **C4 (amended).** The do-nothing probability computed before
normalization is the product of `1 - weight` over the **merged** successor
entries; whenever the applying rules produce pairwise distinct successor
states this equals the claimed joint non-firing probability
`Π (1 - w_r)` over the individual applying rules. -/
theorem C4_nothing_probability_of_distinct_successors {S : Type} [DecidableEq S]
    (rules : List (Rule S)) (s : S)
    (hnd : (((rules.filter (fun r => r.applies s)).map
      (fun r => r.apply_action s))).Nodup) :
    nothing_probability rules s =
      ((rules.filter (fun r => r.applies s)).map (fun r => 1 - r.weight)).prod := by
  unfold nothing_probability
  rw [new_states_by_weight_of_nodup rules s hnd, List.map_map]
  rfl

/-- Witness for C4: forward (weight 1/2) and backward (weight 1/3) rules
at state 0 have distinct successors, so the do-nothing probability is
`(1 - 1/2)·(1 - 1/3) = 1/3`. -/
theorem C4_witness :
    ((([⟨"fwd", fun _ => true, (1 : ℚ) / 2, fun s => s + 1⟩,
        ⟨"bwd", fun _ => true, (1 : ℚ) / 3, fun s => s - 1⟩] :
        List (Rule ℤ)).filter (fun r => r.applies (0 : ℤ))).map
      (fun r => r.apply_action (0 : ℤ))).Nodup ∧
      nothing_probability
        [⟨"fwd", fun _ => true, (1 : ℚ) / 2, fun s => s + 1⟩,
         ⟨"bwd", fun _ => true, (1 : ℚ) / 3, fun s => s - 1⟩] (0 : ℤ) =
        ((([⟨"fwd", fun _ => true, (1 : ℚ) / 2, fun s => s + 1⟩,
           ⟨"bwd", fun _ => true, (1 : ℚ) / 3, fun s => s - 1⟩] :
           List (Rule ℤ)).filter (fun r => r.applies (0 : ℤ))).map
          (fun r => 1 - r.weight)).prod := by
  have hnd : ((([⟨"fwd", fun _ => true, (1 : ℚ) / 2, fun s => s + 1⟩,
      ⟨"bwd", fun _ => true, (1 : ℚ) / 3, fun s => s - 1⟩] :
      List (Rule ℤ)).filter (fun r => r.applies (0 : ℤ))).map
      (fun r => r.apply_action (0 : ℤ))).Nodup := by
    norm_num [Rule.applies, Rule.apply_action, List.filter]
  exact ⟨hnd, C4_nothing_probability_of_distinct_successors _ _ hnd⟩

theorem row_sum_map_out {S : Type} (m : HMap S (S × ℚ × String)) :
    Simulation.row_sum (m.map (fun p => (p.2.1, p.2.2.2, p.2.2.1))) = wsum m := by
  unfold Simulation.row_sum wsum
  rw [List.map_map]
  rfl

theorem wsum_map_div {S : Type} (m : HMap S (S × ℚ × String)) (W : ℚ) :
    wsum (m.map (fun p => (p.1, (p.2.1, p.2.2.1 / W, p.2.2.2)))) = wsum m / W := by
  unfold wsum
  rw [List.map_map]
  have h : (m.map (fun p : S × S × ℚ × String => p.2.2.1 / W)) =
      (m.map (fun p => p.2.2.1)).map (fun x => x / W) := by
    rw [List.map_map]
    rfl
  show (m.map (fun p : S × S × ℚ × String => p.2.2.1 / W)).sum = _
  rw [h, qlist_map_div_sum]

theorem rules_weight_sum_spec {S : Type} [DecidableEq S]
    (rules : List (Rule S)) (s : S) :
    rules_weight_sum rules s =
      wsum (new_states_by_weight rules s) + nothing_probability rules s := rfl

theorem wsum_upsert_nothing {S : Type} [DecidableEq S]
    (m : HMap S (S × ℚ × String)) (k : S) (c : ℚ) (a : S) (str : String) :
    wsum (hmUpsert m k
      (fun v => (v.1, v.2.1 + c, v.2.2 ++ " | Nothing")) (a, c, str)) =
      wsum m + c :=
  wsum_upsert_add m k c (fun str0 => str0 ++ " | Nothing") a str

/-- Core normalization fact: if every merged successor weight lies in
`[0, 1]`, the emitted successor list sums to exactly 1. -/
theorem generator_row_sum_of_merged_bounds {S : Type} [DecidableEq S]
    (rules : List (Rule S)) (s : S)
    (hm : ∀ p ∈ new_states_by_weight rules s, 0 ≤ p.2.2.1 ∧ p.2.2.1 ≤ 1) :
    Simulation.row_sum (get_state_transition_generator rules s) = 1 := by
  have hwnn : 0 ≤ wsum (new_states_by_weight rules s) := by
    refine qlist_sum_nonneg _ ?_
    intro x hx
    obtain ⟨p, hp, hpx⟩ := List.mem_map.mp hx
    exact hpx ▸ (hm p hp).1
  have hnp_nonneg : 0 ≤ nothing_probability rules s := by
    refine qlist_prod_nonneg _ ?_
    intro x hx
    obtain ⟨p, hp, hpx⟩ := List.mem_map.mp hx
    have := (hm p hp).2
    rw [← hpx]
    linarith
  unfold get_state_transition_generator
  dsimp only
  rw [row_sum_map_out]
  by_cases hpos : 0 < nothing_probability rules s
  · rw [if_pos hpos]
    have hW : (0 : ℚ) < rules_weight_sum rules s := by
      rw [rules_weight_sum_spec]
      linarith
    rw [wsum_upsert_nothing, wsum_map_div, div_add_div_same, ← rules_weight_sum_spec]
    exact div_self (ne_of_gt hW)
  · rw [if_neg hpos]
    have hzero : nothing_probability rules s = 0 := le_antisymm (not_lt.mp hpos) hnp_nonneg
    have hone : ∃ p ∈ new_states_by_weight rules s, p.2.2.1 = 1 := by
      have hin : (0 : ℚ) ∈ (new_states_by_weight rules s).map (fun p => 1 - p.2.2.1) := by
        rw [← List.prod_eq_zero_iff]
        exact hzero
      obtain ⟨p, hp, hpx⟩ := List.mem_map.mp hin
      exact ⟨p, hp, by linarith⟩
    have hWge : (1 : ℚ) ≤ wsum (new_states_by_weight rules s) := by
      obtain ⟨p, hp, hp1⟩ := hone
      have := qlist_single_le_sum ((new_states_by_weight rules s).map (fun p => p.2.2.1))
        (by
          intro x hx
          obtain ⟨q, hq, hqx⟩ := List.mem_map.mp hx
          exact hqx ▸ (hm q hq).1)
        p.2.2.1 (List.mem_map.mpr ⟨p, hp, rfl⟩)
      rw [hp1] at this
      exact this
    rw [wsum_map_div]
    have hWeq : rules_weight_sum rules s = wsum (new_states_by_weight rules s) := by
      rw [rules_weight_sum_spec, hzero, add_zero]
    rw [hWeq]
    exact div_self (by linarith)

/-- Two always-applying rules with weight 4/5 whose actions coincide. -/
def rule_heavy_a : Rule ℤ :=
  ⟨"a", fun _ => true, (4 : ℚ) / 5, fun s => s + 1⟩

/-- Second copy with a different description. -/
def rule_heavy_b : Rule ℤ :=
  ⟨"b", fun _ => true, (4 : ℚ) / 5, fun s => s + 1⟩

/-- **C5 (counterexample).** Two applying rules with weights 4/5 in `[0,1]`
mapping state 0 to the same successor merge to a single entry of weight
8/5; the do-nothing probability becomes `1 - 8/5 = -3/5 < 0`, the
denominator is `8/5 - 3/5 = 1`, no self-loop is added, and the emitted
successor list sums to 8/5 ≠ 1. -/
theorem C5_counterexample :
    (∀ r ∈ [rule_heavy_a, rule_heavy_b], 0 ≤ r.weight ∧ r.weight ≤ 1) ∧
      Simulation.row_sum
        (get_state_transition_generator [rule_heavy_a, rule_heavy_b] (0 : ℤ)) =
        8 / 5 ∧
      (8 : ℚ) / 5 ≠ 1 := by
  refine ⟨?_, ?_, by norm_num⟩
  · intro r hr
    rcases List.mem_cons.mp hr with hr | hr
    · subst hr
      constructor <;> norm_num [rule_heavy_a]
    · rcases List.mem_cons.mp hr with hr | hr
      · subst hr
        constructor <;> norm_num [rule_heavy_b]
      · cases hr
  · norm_num [get_state_transition_generator, new_states_by_weight,
      nothing_probability, rules_weight_sum, hmUpsert, Rule.applies,
      Rule.apply_action, rule_heavy_a, rule_heavy_b, List.filter,
      Simulation.row_sum]

/-- **C5 (amended).** For every source state and every rule collection
with weights in `[0,1]` whose applying rules produce pairwise distinct
successor states, the successor list emitted by the composed generator
has probabilities summing exactly to 1. (With coinciding successors the
merged weight can exceed 1 and the output sum then exceeds 1.) -/
theorem C5_generator_output_sums_to_one {S : Type} [DecidableEq S]
    (rules : List (Rule S)) (s : S)
    (hw : ∀ r ∈ rules, 0 ≤ r.weight ∧ r.weight ≤ 1)
    (hnd : (((rules.filter (fun r => r.applies s)).map
      (fun r => r.apply_action s))).Nodup) :
    Simulation.row_sum (get_state_transition_generator rules s) = 1 := by
  refine generator_row_sum_of_merged_bounds rules s ?_
  intro p hp
  rw [new_states_by_weight_of_nodup rules s hnd] at hp
  obtain ⟨r, hr, hrp⟩ := List.mem_map.mp hp
  have := hw r (List.mem_of_mem_filter hr)
  rw [← hrp]
  exact this

/-- Witness for C5: forward and backward rules of weight 1 at state 0. -/
theorem C5_witness :
    (∀ r ∈ ([⟨"fwd", fun _ => true, (1 : ℚ), fun s => s + 1⟩,
        ⟨"bwd", fun _ => true, (1 : ℚ), fun s => s - 1⟩] : List (Rule ℤ)),
      0 ≤ r.weight ∧ r.weight ≤ 1) ∧
      Simulation.row_sum
        (get_state_transition_generator
          [⟨"fwd", fun _ => true, (1 : ℚ), fun s => s + 1⟩,
           ⟨"bwd", fun _ => true, (1 : ℚ), fun s => s - 1⟩] (0 : ℤ)) = 1 := by
  have hw : ∀ r ∈ ([⟨"fwd", fun _ => true, (1 : ℚ), fun s => s + 1⟩,
      ⟨"bwd", fun _ => true, (1 : ℚ), fun s => s - 1⟩] : List (Rule ℤ)),
      0 ≤ r.weight ∧ r.weight ≤ 1 := by
    intro r hr
    rcases List.mem_cons.mp hr with hr | hr
    · subst hr
      exact ⟨by norm_num, by norm_num⟩
    · rcases List.mem_cons.mp hr with hr | hr
      · subst hr
        exact ⟨by norm_num, by norm_num⟩
      · cases hr
  have hnd : ((([⟨"fwd", fun _ => true, (1 : ℚ), fun s => s + 1⟩,
      ⟨"bwd", fun _ => true, (1 : ℚ), fun s => s - 1⟩] :
      List (Rule ℤ)).filter (fun r => r.applies (0 : ℤ))).map
      (fun r => r.apply_action (0 : ℤ))).Nodup := by
    norm_num [Rule.applies, Rule.apply_action, List.filter]
  exact ⟨hw, C5_generator_output_sums_to_one _ _ hw hnd⟩

theorem f64_fold_pos {S : Type} (l : List (S × ℚ)) (h : ∀ p ∈ l, 0 < p.2) :
    ∀ a : ℝ,
      ((l.map (fun p => f64_term p.2)).foldl
        (fun acc x =>
          match acc, x with
          | some a, some b => some (a + b)
          | _, _ => none)
        (some a)) =
        some (a + ((l.map (fun p => (p.2 : ℝ) * Real.logb 2 (p.2 : ℝ))).sum)) := by
  induction l with
  | nil =>
      intro a
      simp
  | cons p rest ih =>
      intro a
      have hp : f64_term p.2 = some ((p.2 : ℝ) * Real.logb 2 (p.2 : ℝ)) := by
        rw [f64_term, if_pos (h p (List.mem_cons_self _ _))]
      simp only [List.map_cons, List.foldl_cons, hp, List.sum_cons]
      rw [ih (fun q hq => h q (List.mem_cons_of_mem _ hq))]
      rw [add_assoc]

theorem f64_sum_all_pos {S : Type} (l : List (S × ℚ)) (h : ∀ p ∈ l, 0 < p.2) :
    f64_sum (l.map (fun p => f64_term p.2)) =
      some ((l.map (fun p => (p.2 : ℝ) * Real.logb 2 (p.2 : ℝ))).sum) := by
  unfold f64_sum
  rw [f64_fold_pos l h 0, zero_add]

/-- Engine whose stored time-0 distribution contains a zero-probability
entry (the probabilities still sum to 1). -/
def simC6 : Simulation ℤ String :=
  Simulation.new_with_distribution [(0, 1), (1, 0)] walk_generator

/-- **C6 (counterexample).** Time 0 is recorded and its stored
distribution `{0 ↦ 1, 1 ↦ 0}` contains a zero-probability entry; the
source maps **every** stored probability to `p * p.log2()`, and in IEEE
arithmetic `0.0 * log2(0.0) = 0.0 * (-inf) = NaN`, so `entropy(0)` is NaN
(`none` in the model), not the real number `|1·log₂ 1| = 0` that the
claim's sum over only the nonzero probabilities prescribes. -/
theorem C6_counterexample :
    hmLookup simC6.probability_distributions 0 = some [((0 : ℤ), (1 : ℚ)), (1, 0)] ∧
      Simulation.entropy simC6 0 = none := by
  constructor
  · rfl
  · show ((Simulation.probability_distribution simC6 0).bind _) = none
    have hpd : Simulation.probability_distribution simC6 0 =
        some [((0 : ℤ), (1 : ℚ)), (1, 0)] := rfl
    rw [hpd]
    show (f64_sum ([((0 : ℤ), (1 : ℚ)), (1, 0)].map
      (fun p => f64_term p.2))).map (fun x => |x|) = none
    have h1 : f64_term (1 : ℚ) = some ((1 : ℝ) * Real.logb 2 ((1 : ℚ) : ℝ)) := by
      rw [f64_term, if_pos (by norm_num)]
      norm_num
    have h0 : f64_term (0 : ℚ) = none := by
      rw [f64_term, if_neg (by norm_num)]
    simp [f64_sum, h1, h0]

/-- **C6 (amended).** `entropy(t)` computes `|Σ p·log₂ p|` over **all**
entries stored in `D[t]`. When every stored probability is positive this
equals the claim's sum over the nonzero probabilities; it is 0 on the
empty distribution and on a single atom of probability 1. But when `D[t]`
contains an entry with probability 0 the IEEE result is NaN, not a real
number. -/
theorem C6_entropy_on_positive_support {S T : Type} [DecidableEq S] [DecidableEq T]
    (sim : Simulation S T) (t : Time) (d : HMap S Probability)
    (hd : sim.probability_distribution t = some d)
    (hpos : ∀ p ∈ d, 0 < p.2) :
    sim.entropy t =
        some |((d.map (fun p => (p.2 : ℝ) * Real.logb 2 (p.2 : ℝ))).sum)| ∧
      (d = [] → sim.entropy t = some 0) ∧
      (∀ s0 : S, d = [(s0, 1)] → sim.entropy t = some 0) := by
  have hmain : sim.entropy t =
      some |((d.map (fun p => (p.2 : ℝ) * Real.logb 2 (p.2 : ℝ))).sum)| := by
    show (sim.probability_distribution t).bind _ = _
    rw [hd]
    show (f64_sum (d.map (fun p => f64_term p.2))).map (fun x => |x|) = _
    rw [f64_sum_all_pos d hpos]
    rfl
  refine ⟨hmain, ?_, ?_⟩
  · intro hnil
    subst hnil
    simpa using hmain
  · intro s0 hsingle
    subst hsingle
    rw [hmain]
    norm_num

/-- Witness for C6: a two-atom distribution with positive probabilities. -/
theorem C6_witness :
    Simulation.probability_distribution
        (Simulation.new_with_distribution [((0 : ℤ), (1 : ℚ) / 2), (1, 1 / 2)]
          walk_generator) 0 =
      some [((0 : ℤ), (1 : ℚ) / 2), (1, 1 / 2)] ∧
      (∀ p ∈ ([((0 : ℤ), (1 : ℚ) / 2), (1, 1 / 2)] : HMap ℤ Probability), 0 < p.2) ∧
      Simulation.entropy
          (Simulation.new_with_distribution [((0 : ℤ), (1 : ℚ) / 2), (1, 1 / 2)]
            walk_generator) 0 =
        some |((([((0 : ℤ), (1 : ℚ) / 2), (1, 1 / 2)] : HMap ℤ Probability).map
          (fun p => (p.2 : ℝ) * Real.logb 2 (p.2 : ℝ))).sum)| := by
  have hd : Simulation.probability_distribution
      (Simulation.new_with_distribution [((0 : ℤ), (1 : ℚ) / 2), (1, 1 / 2)]
        walk_generator) 0 =
      some [((0 : ℤ), (1 : ℚ) / 2), (1, 1 / 2)] := rfl
  have hpos : ∀ p ∈ ([((0 : ℤ), (1 : ℚ) / 2), (1, 1 / 2)] : HMap ℤ Probability),
      0 < p.2 := by
    intro p hp
    rcases List.mem_cons.mp hp with hp | hp
    · subst hp
      norm_num
    · rcases List.mem_cons.mp hp with hp | hp
      · subst hp
        norm_num
      · cases hp
  exact ⟨hd, hpos,
    (C6_entropy_on_positive_support _ 0 _ hd hpos).1⟩
